import Mathlib

/-!
# Verification of the `py_ofdm` OFDM codec (`ofdm_codec.py`)

A shallow embedding of the class `OFDM` from `ofdm_codec.py`:
the constructor (`OFDM.init`), the symbol encoder (`OFDM.encode`), the
decoder (`OFDM.initDecode`/`OFDM.decode`, fused into one function that
takes the cursor as an argument and returns the new cursor), and the
two-stage symbol-start detector (`OFDM.findSymbolStartIndex`).

Modelling conventions:
* machine integers are `ℕ`/`ℤ`; Python `int()` truncation is `pytrunc`;
* the pilot countdown `pilot_counter = self.pilot_distance/2` is a Python
  float holding an exact half-integer; every operation on it (subtracting
  `1`, comparing with `0`) is exact in IEEE double for all realistic
  `pilot_distance`, so it is modelled as an exact rational `ℚ`;
* the spectrum holds QAM points `±1 ± i` and the rational pilot amplitude,
  so it is modelled as a computable function `ℕ → ℚ × ℚ` (re, im) and
  injected into `ℂ` only at the FFT boundary (`toC`);
* real-valued sample streams are `List ℝ`; `np.fft.ifft`/`np.fft.fft` are
  the textbook DFT sums `npifft`/`npfft`;
* fallible operations (out-of-range indexing raises `IndexError` in
  numpy) return `Option`;
* `random.seed(s)` followed by successive `random.randint(0,255)` draws is
  a deterministic stream; it is modelled by an arbitrary function
  `rnd : ℕ → ℕ → ℕ` mapping a seed and a draw index to the drawn value,
  shared by encoder and decoder exactly as the seeded PRNG is.
-/

namespace PyOfdm

/-- Python `int()` applied to an exact rational: truncation toward zero. -/
def pytrunc (q : ℚ) : ℤ := if 0 ≤ q then ⌊q⌋ else ⌈q⌉

/-- The index step `k = k + 1` followed by
`if not (k < self.nIFFT): k = 0` (wrap to bin 0 past the last bin),
from `ofdm_codec.py` lines 118-120, 123-127, 230-232, 237-241. -/
def wrapInc (n k : ℕ) : ℕ := if k + 1 < n then k + 1 else 0

/-- The state of an `OFDM` object after `__init__` (`ofdm_codec.py`
lines 35-62): all fields are immutable configuration. -/
structure OFDM where
  nIFFT : ℕ
  nData : ℕ
  nCyclic : ℕ
  pilot_distance : ℕ
  pilot_amplitude : ℚ
  k_start : ℤ
deriving DecidableEq, Repr

/-- `OFDM.__init__` (`ofdm_codec.py` lines 35-62).  `nCyclic = None` (and
also `nCyclic = 0`, since Python `if nCyclic:` is false for `0`) selects
the default prefix length `int(self.nIFFT * 2 / 4)`; the float division
there is exact, so the value is `nFreqSamples * 2 / 4` in `ℕ`.
`k_start = int(self.nIFFT - self.nIFFT / self.pilot_distance / 2 - nData * 4 / 2)`. -/
def OFDM.init (nFreqSamples pilotDistanceInSamples : ℕ) (pilotAmplitude : ℚ)
    (nData : ℕ) (nCyclic : Option ℕ) : OFDM :=
  { nIFFT := nFreqSamples
    nData := nData
    nCyclic := match nCyclic with
      | some c => if c ≠ 0 then c else nFreqSamples * 2 / 4
      | none => nFreqSamples * 2 / 4
    pilot_distance := pilotDistanceInSamples
    pilot_amplitude := pilotAmplitude
    k_start := pytrunc ((nFreqSamples : ℚ) -
      (nFreqSamples : ℚ) / (pilotDistanceInSamples : ℚ) / 2 - (nData : ℚ) * 4 / 2) }

/-- `self.k_start` as the `ℕ` bin index the encode/decode loops start from.
All theorems assume `0 ≤ k_start`, under which `toNat` is the identity
on the mathematical value (negative `k_start` would make numpy index from
the end of the spectrum and is outside the supported configurations). -/
def OFDM.kstart (cfg : OFDM) : ℕ := cfg.k_start.toNat

/-- One entry of the 8-entry `bitstream` array built from a scrambled byte
(`ofdm_codec.py` lines 101-108): `m = 1 << bit; testbit = m & databyte;`
`+1` if `testbit > 0` else `-1`. -/
def bitval (databyte bit : ℕ) : ℚ := if 0 < (1 <<< bit) &&& databyte then 1 else -1

/-- Mutable state of the encoder's spectrum-assembly loop
(`ofdm_codec.py` lines 73-127): the bin index `k`, the pilot countdown
`pilot_counter`, and the spectrum array. -/
structure EncSt where
  k : ℕ
  pilot_counter : ℚ
  spectrum : ℕ → ℚ × ℚ

/-- One iteration of the inner `for cnum in range(4)` loop of `encode`
(`ofdm_codec.py` lines 112-127): decrement the pilot countdown; on zero,
write the pilot amplitude at bin `k`, advance `k` (with wrap) and reset
the countdown to `pilot_distance`; then write the QPSK point
`complex(bitstream[2*cnum], bitstream[2*cnum+1])` at bin `k` and advance
`k` (with wrap).  `databyte` is the scrambled byte. -/
def cnumStep (cfg : OFDM) (databyte : ℕ) (st : EncSt) (cnum : ℕ) : EncSt :=
  let pc := st.pilot_counter - 1
  let st1 : EncSt :=
    if pc = 0 then
      { k := wrapInc cfg.nIFFT st.k
        pilot_counter := (cfg.pilot_distance : ℚ)
        spectrum := Function.update st.spectrum st.k (cfg.pilot_amplitude, 0) }
    else { st with pilot_counter := pc }
  { k := wrapInc cfg.nIFFT st1.k
    pilot_counter := st1.pilot_counter
    spectrum := Function.update st1.spectrum st1.k
      (bitval databyte (2 * cnum), bitval databyte (2 * cnum + 1)) }

/-- The body of the outer `for x in range(self.nData)` loop of `encode`
for one (already scrambled) byte: the four QPSK writes. -/
def encByte (cfg : OFDM) (st : EncSt) (databyte : ℕ) : EncSt :=
  (List.range 4).foldl (cnumStep cfg databyte) st

/-- The spectrum-assembly phase of `encode` (`ofdm_codec.py` lines
73-127): starting from the all-zero spectrum, bin index `k = k_start`
and countdown `pilot_distance / 2`, process each of the `nData` bytes,
scrambling byte `x` with the draw `rnd x` (`databyte ^ r`, line 98).
`rnd` is the seeded `randint(0,255)` stream. -/
def encodeSpectrum (cfg : OFDM) (rnd : ℕ → ℕ) (data : List ℕ) : EncSt :=
  (List.range cfg.nData).foldl
    (fun st x => encByte cfg st ((data.getD x 0) ^^^ rnd x))
    ⟨cfg.kstart, (cfg.pilot_distance : ℚ) / 2, fun _ => (0, 0)⟩

/-- Injection of the exact spectrum values into `ℂ`. -/
noncomputable def toC (p : ℚ × ℚ) : ℂ := ⟨(p.1 : ℝ), (p.2 : ℝ)⟩

/-- `np.fft.ifft` of length `n` (numpy convention: scale `1/n`, kernel
`exp(+2πi·k·m/n)`), read as a function of the output index `m`. -/
noncomputable def npifft (n : ℕ) (X : ℕ → ℂ) (m : ℕ) : ℂ :=
  (n : ℂ)⁻¹ * ∑ k ∈ Finset.range n, X k * Complex.exp (2 * Real.pi * Complex.I * k * m / n)

/-- `np.fft.fft` of length `n` (numpy convention: no scaling, kernel
`exp(-2πi·k·m/n)`), read as a function of the output index `m`. -/
noncomputable def npfft (n : ℕ) (x : ℕ → ℂ) (m : ℕ) : ℂ :=
  ∑ k ∈ Finset.range n, x k * Complex.exp (-(2 * Real.pi * Complex.I * k * m / n))

/-- The Nyquist quadrature modulator loop of `encode` (`ofdm_codec.py`
lines 144-151): interleave `s*Re c, s*Im c` with the sign `s`
alternating `+1, -1, +1, …`. -/
noncomputable def nyquistModAux (s : ℝ) : List ℂ → List ℝ
  | [] => []
  | c :: rest => s * c.re :: s * c.im :: nyquistModAux (s * -1) rest

/-- The Nyquist quadrature modulator: the loop started with `s = 1`. -/
noncomputable def nyquistMod (cs : List ℂ) : List ℝ := nyquistModAux 1 cs

/-- Python slice `tx_symbol[-c:]` (`ofdm_codec.py` line 157): the last `c`
elements; `xs[-0:]` is the whole list. -/
def negSlice (xs : List ℝ) (c : ℕ) : List ℝ :=
  if c = 0 then xs else xs.drop (xs.length - c)

/-- `OFDM.encode` (`ofdm_codec.py` lines 64-163).  Returns `none` exactly
when `data` holds fewer than `nData` bytes (then `data[x]` raises
`IndexError`); bytes beyond index `nData - 1` are never read.  Otherwise
appends the cyclic prefix and the modulated symbol to `signal`.
`rnd randomSeed` is the `randint(0,255)` stream after
`random.seed(randomSeed)`. -/
noncomputable def OFDM.encode (cfg : OFDM) (rnd : ℕ → ℕ → ℕ) (signal : List ℝ)
    (data : List ℕ) (randomSeed : ℕ) : Option (List ℝ) :=
  if data.length < cfg.nData then none else
  let sp := (encodeSpectrum cfg (rnd randomSeed) data).spectrum
  let complex_symbol : List ℂ :=
    List.ofFn (fun n : Fin cfg.nIFFT => npifft cfg.nIFFT (fun k => toC (sp k)) n.val)
  let tx_symbol := nyquistMod complex_symbol
  some (signal ++ negSlice tx_symbol cfg.nCyclic ++ tx_symbol)

/-- `np.heaviside(x, h0)`: `0` below zero, `h0` at zero, `1` above. -/
noncomputable def heaviside (x h0 : ℝ) : ℝ := if x < 0 then 0 else if x = 0 then h0 else 1

/-- Decoder session state, as set by `OFDM.initDecode` (`ofdm_codec.py`
lines 166-173): the received signal, the read cursor `rxindex` and the
running demodulator sign `s`. -/
structure RxState where
  signal : List ℝ
  rxindex : ℕ
  s : ℝ

/-- `OFDM.initDecode` (`ofdm_codec.py` lines 166-173). -/
def OFDM.initDecode (signal : List ℝ) (offset : ℕ) : RxState :=
  ⟨signal, offset, 1⟩

/-- The Nyquist quadrature demodulator loop of `decode` (`ofdm_codec.py`
lines 190-196): read `count` complex samples from `sig` starting at
`idx`, two reals per sample, multiplying both by the alternating sign. -/
noncomputable def nyquistDemodAux (sig : ℕ → ℝ) : ℝ → ℕ → ℕ → List ℂ
  | _, _, 0 => []
  | s, idx, count + 1 =>
      (⟨s * sig idx, s * sig (idx + 1)⟩ : ℂ) :: nyquistDemodAux sig (s * -1) (idx + 2) count

/-- State of the decoder's demapping loop (`ofdm_codec.py` lines 205-258)
while one byte is being assembled: bin index `k`, pilot countdown,
accumulated `imPilots`, and the 8-entry `bitstream` array. -/
structure DecByteSt where
  k : ℕ
  pilot_counter : ℚ
  imPilots : ℝ
  bitstream : ℕ → ℝ

/-- One iteration of `decode`'s inner `for cnum in range(4)` loop
(`ofdm_codec.py` lines 224-241): on pilot countdown zero, add
`abs(imag(isymbol[k]))` to `imPilots` and skip the pilot bin; then read
the QPSK pair at bin `k` through `np.heaviside(·, 0)`. -/
noncomputable def decCnumStep (cfg : OFDM) (isymbol : ℕ → ℂ) (st : DecByteSt)
    (cnum : ℕ) : DecByteSt :=
  let pc := st.pilot_counter - 1
  let st1 : DecByteSt :=
    if pc = 0 then
      { st with k := wrapInc cfg.nIFFT st.k
                pilot_counter := (cfg.pilot_distance : ℚ)
                imPilots := st.imPilots + |(isymbol st.k).im| }
    else { st with pilot_counter := pc }
  { st1 with
    k := wrapInc cfg.nIFFT st1.k
    bitstream := Function.update
      (Function.update st1.bitstream (2 * cnum) (heaviside (isymbol st1.k).re 0))
      (2 * cnum + 1) (heaviside (isymbol st1.k).im 0) }

/-- Reassembly of a byte from the decoded `bitstream` array
(`ofdm_codec.py` lines 245-251): bitwise or of `1 << bit` over the bits
whose entry is `> 0`. -/
noncomputable def byteFromBits (bits : ℕ → ℝ) : ℕ :=
  (List.range 8).foldl
    (fun databyte bit => if 0 < bits bit then (1 <<< bit) ||| databyte else databyte) 0

/-- State of `decode`'s outer loop over bytes. -/
structure DecSt where
  k : ℕ
  pilot_counter : ℚ
  imPilots : ℝ
  data : List ℕ

/-- The body of `decode`'s outer `for x in range(self.nData)` loop for one
byte (`ofdm_codec.py` lines 218-258): run the four `cnum` iterations on a
fresh zero `bitstream` array, reassemble the byte, de-scramble it with the
draw `r` and append it to the decoded data. -/
noncomputable def decByte (cfg : OFDM) (isymbol : ℕ → ℂ) (st : DecSt) (r : ℕ) : DecSt :=
  let inner := (List.range 4).foldl (decCnumStep cfg isymbol)
    ⟨st.k, st.pilot_counter, st.imPilots, fun _ => 0⟩
  { k := inner.k
    pilot_counter := inner.pilot_counter
    imPilots := inner.imPilots
    data := st.data ++ [byteFromBits inner.bitstream ^^^ r] }

/-- The demapping phase of `decode` (`ofdm_codec.py` lines 203-258),
starting like the encoder from `k = k_start` and countdown
`pilot_distance / 2`. -/
noncomputable def decodeLoop (cfg : OFDM) (rnd : ℕ → ℕ) (isymbol : ℕ → ℂ) : DecSt :=
  (List.range cfg.nData).foldl (fun st x => decByte cfg isymbol st (rnd x))
    ⟨cfg.kstart, (cfg.pilot_distance : ℚ) / 2, 0, []⟩

/-- `OFDM.decode` (`ofdm_codec.py` lines 175-259).  Skips the cyclic
prefix, demodulates `nIFFT` complex samples (2 reals each), FFTs them and
demaps.  Returns the decoded bytes, `imPilots`, and the updated session
state; `none` exactly when a signal read would be out of range
(`IndexError`): the loop reads indices
`rxindex + nCyclic … rxindex + nCyclic + 2*nIFFT - 1` when `nIFFT > 0`. -/
noncomputable def OFDM.decode (cfg : OFDM) (rnd : ℕ → ℕ → ℕ) (st : RxState)
    (randomSeed : ℕ) : Option (List ℕ × ℝ × RxState) :=
  if 0 < cfg.nIFFT ∧ st.signal.length < st.rxindex + cfg.nCyclic + 2 * cfg.nIFFT then
    none
  else
    let start := st.rxindex + cfg.nCyclic
    let rx_symbol : List ℂ :=
      nyquistDemodAux (fun i => st.signal.getD i 0) st.s start cfg.nIFFT
    let isymbol : ℕ → ℂ := npfft cfg.nIFFT (fun n => rx_symbol.getD n 0)
    let dst := decodeLoop cfg (rnd randomSeed) isymbol
    some (dst.data, dst.imPilots,
      ⟨st.signal, start + 2 * cfg.nIFFT, st.s * (-1) ^ cfg.nIFFT⟩)

/-! ## The bin-traversal schedule

`encode` (lines 77-127) and `decode` (lines 205-241) traverse the
spectrum bins with literally the same control flow: a bin index starting
at `k_start` advancing with wrap, and a pilot countdown starting at
`pilot_distance/2`, reset to `pilot_distance` on reaching zero.  The
following definitions capture that shared schedule as data so that both
loops can be proved equal to folds over it. -/

/-- A scheduled bin access: a pilot write/read, or a data (QPSK)
write/read. -/
inductive BinEv where
  | pilot : ℕ → BinEv
  | data : ℕ → BinEv
deriving DecidableEq, Repr

/-- The bin an event touches. -/
def BinEv.bin : BinEv → ℕ
  | .pilot b => b
  | .data b => b

/-- The final `(k, pilot_counter)` traversal state after `n` `cnum`
iterations starting from `(k, pc)`. -/
def travEnd (cfg : OFDM) : ℚ → ℕ → ℕ → ℕ × ℚ
  | pc, k, 0 => (k, pc)
  | pc, k, n + 1 =>
    let pc1 := pc - 1
    if pc1 = 0 then
      travEnd cfg (cfg.pilot_distance : ℚ) (wrapInc cfg.nIFFT (wrapInc cfg.nIFFT k)) n
    else travEnd cfg pc1 (wrapInc cfg.nIFFT k) n

/-- The schedule of bin writes performed while consuming the QPSK point
list `ps` (one point per `cnum` iteration), starting from traversal state
`(pc, k)`: each point produces a data write, preceded by a pilot write
(of `(pilot_amplitude, 0)`) when the countdown reaches zero. -/
def wrEvents (cfg : OFDM) : ℚ → ℕ → List (ℚ × ℚ) → List (BinEv × (ℚ × ℚ))
  | _, _, [] => []
  | pc, k, p :: ps =>
    let pc1 := pc - 1
    if pc1 = 0 then
      (.pilot k, (cfg.pilot_amplitude, 0)) :: (.data (wrapInc cfg.nIFFT k), p) ::
        wrEvents cfg (cfg.pilot_distance : ℚ) (wrapInc cfg.nIFFT (wrapInc cfg.nIFFT k)) ps
    else (.data k, p) :: wrEvents cfg pc1 (wrapInc cfg.nIFFT k) ps

/-- Apply a list of scheduled writes to a spectrum. -/
def applyWrites (sp : ℕ → ℚ × ℚ) (ws : List (BinEv × (ℚ × ℚ))) : ℕ → ℚ × ℚ :=
  ws.foldl (fun f ev => Function.update f ev.1.bin ev.2) sp

/-- The four QPSK points one scrambled byte is mapped to
(`ofdm_codec.py` lines 112-122): `complex(bitstream[2c], bitstream[2c+1])`
for `cnum = 0,1,2,3`. -/
def pointsOfByte (b : ℕ) : List (ℚ × ℚ) :=
  [(bitval b 0, bitval b 1), (bitval b 2, bitval b 3),
   (bitval b 4, bitval b 5), (bitval b 6, bitval b 7)]

/-- Placeholder points (the schedule's bins and tags do not depend on the
point values). -/
def dummyPoints (n : ℕ) : List (ℚ × ℚ) := List.replicate n (0, 0)

/-- The schedule with the pilot countdown kept in doubled units as an
integer (`z = 2 · pilot_counter`): starting value `pilot_distance`,
decrement `2`, reset `2 · pilot_distance`.  Exactly equivalent to
`wrEvents` (see `wrEvents2_eq`), but reducible by the kernel, which the
rational countdown is not. -/
def wrEvents2 (cfg : OFDM) : ℤ → ℕ → List (ℚ × ℚ) → List (BinEv × (ℚ × ℚ))
  | _, _, [] => []
  | z, k, p :: ps =>
    let z1 := z - 2
    if z1 = 0 then
      (.pilot k, (cfg.pilot_amplitude, 0)) :: (.data (wrapInc cfg.nIFFT k), p) ::
        wrEvents2 cfg (2 * (cfg.pilot_distance : ℤ))
          (wrapInc cfg.nIFFT (wrapInc cfg.nIFFT k)) ps
    else (.data k, p) :: wrEvents2 cfg z1 (wrapInc cfg.nIFFT k) ps

/-- The full write schedule of one symbol, with the point values
irrelevant: tags and bins only. -/
def symbolEvents (cfg : OFDM) : List BinEv :=
  (wrEvents2 cfg (cfg.pilot_distance : ℤ) cfg.kstart
    (dummyPoints (4 * cfg.nData))).map Prod.fst

/-- The bins `encode` writes (pilot or data), in write order. -/
def activeBinsL (cfg : OFDM) : List ℕ := (symbolEvents cfg).map BinEv.bin

/-- The pilot bins of an event list, in order. -/
def pilotsOf (l : List BinEv) : List ℕ :=
  l.filterMap fun e => match e with
    | .pilot b => some b
    | .data _ => none

/-- The data bins of an event list, in order. -/
def datasOf (l : List BinEv) : List ℕ :=
  l.filterMap fun e => match e with
    | .pilot _ => none
    | .data b => some b

/-- The pilot bins, in traversal order. -/
def pilotBinsL (cfg : OFDM) : List ℕ := pilotsOf (symbolEvents cfg)

/-- The data bins, in traversal order. -/
def dataBinsL (cfg : OFDM) : List ℕ := datasOf (symbolEvents cfg)

/-- Total number of bins one symbol writes. -/
def numWrites (cfg : OFDM) : ℕ := (symbolEvents cfg).length

/-- `imPilots` contributions over `n` `cnum` iterations from traversal
state `(pc, k)` (`ofdm_codec.py` line 229): `abs(imag(isymbol[k]))` at
each pilot bin. -/
noncomputable def pilotImSum (cfg : OFDM) (isym : ℕ → ℂ) : ℚ → ℕ → ℕ → ℝ
  | _, _, 0 => 0
  | pc, k, n + 1 =>
    let pc1 := pc - 1
    if pc1 = 0 then
      |(isym k).im| +
        pilotImSum cfg isym (cfg.pilot_distance : ℚ) (wrapInc cfg.nIFFT (wrapInc cfg.nIFFT k)) n
    else pilotImSum cfg isym pc1 (wrapInc cfg.nIFFT k) n

/-! ## Energy-dispersal scrambler -/

/-- The energy-dispersal scrambler: XOR each byte with the successive
draws of the stream `rnd`, starting at draw index `i`
(`ofdm_codec.py` lines 96-98 and 254-255). -/
def scrambleFrom (rnd : ℕ → ℕ) : ℕ → List ℕ → List ℕ
  | _, [] => []
  | i, b :: bs => (b ^^^ rnd i) :: scrambleFrom rnd (i + 1) bs

/-- The scrambler from the start of the stream. -/
def scramble (rnd : ℕ → ℕ) (bs : List ℕ) : List ℕ := scrambleFrom rnd 0 bs

/-- The mask bytes `encode` consumes: one `randint(0,255)` draw per data
byte after `random.seed(randomSeed)` (`ofdm_codec.py` lines 83, 96). -/
def OFDM.encodeMask (cfg : OFDM) (rnd : ℕ → ℕ → ℕ) (randomSeed : ℕ) : List ℕ :=
  (List.range cfg.nData).map (rnd randomSeed)

/-- The mask bytes `decode` consumes: one `randint(0,255)` draw per data
byte after `random.seed(randomSeed)` (`ofdm_codec.py` lines 203, 254). -/
def OFDM.decodeMask (cfg : OFDM) (rnd : ℕ → ℕ → ℕ) (randomSeed : ℕ) : List ℕ :=
  (List.range cfg.nData).map (rnd randomSeed)

/-- The spectrum-assembly loop on an already-scrambled byte list. -/
def encodeSpectrumRaw (cfg : OFDM) (sbs : List ℕ) : EncSt :=
  (List.range cfg.nData).foldl (fun st x => encByte cfg st (sbs.getD x 0))
    ⟨cfg.kstart, (cfg.pilot_distance : ℚ) / 2, fun _ => (0, 0)⟩

/-! ## Symbol-start detection (`findSymbolStartIndex`, lines 262-296) -/

/-- Python slice `xs[a:b]` for `0 ≤ a ≤ b` (clamping, never failing). -/
def pySlice (xs : List ℝ) (a b : ℕ) : List ℝ := (xs.drop a).take (b - a)

/-- `np.correlate(a, v)` in the default `valid` mode for the case
`len(v) ≤ len(a)`: sliding dot products. -/
noncomputable def corrValid (a v : List ℝ) : List ℝ :=
  (List.range (a.length - v.length + 1)).map fun k =>
    ((List.range v.length).map fun j => a.getD (k + j) 0 * v.getD j 0).sum

/-- `np.correlate(a, v)` (default `valid` mode) for real inputs; when
`v` is longer, numpy swaps the arguments and reverses the result. -/
noncomputable def npCorrelate (a v : List ℝ) : List ℝ :=
  if v.length ≤ a.length then corrValid a v else (corrValid v a).reverse

/-- The coarse cross-correlation array (`ofdm_codec.py` lines 277-282):
for each `i` in the coarse search range, `np.correlate` of
`signal[i:i+nCyclic]` with `signal[i+2N:i+2N+nCyclic]`, appended into one
array. -/
noncomputable def coarseCrosscorr (cfg : OFDM) (signal : List ℝ) (src : ℕ) : List ℝ :=
  (List.range src).foldl
    (fun acc i => acc ++ npCorrelate (pySlice signal i (i + cfg.nCyclic))
      (pySlice signal (i + 2 * cfg.nIFFT) (i + 2 * cfg.nIFFT + cfg.nCyclic)))
    []

/-- The plateau scan of `scipy.signal._peak_finding_utils._local_maxima_1d`:
starting from `j`, the first index that is `≥ imax` or whose value differs
from `v`. -/
noncomputable def aheadIdx (x : ℕ → ℝ) (imax : ℕ) (v : ℝ) : ℕ → ℕ → ℕ
  | 0, j => j
  | f + 1, j => if j < imax ∧ x j = v then aheadIdx x imax v f (j + 1) else j

/-- The main scan of `_local_maxima_1d` (fuelled): a sample is a local
maximum when its left neighbour is strictly smaller and the first
different sample to the right (within the interior) is strictly smaller;
a plateau reports its midpoint `(left + right) // 2`. -/
noncomputable def lmAux (x : ℕ → ℝ) (imax : ℕ) : ℕ → ℕ → List ℕ
  | 0, _ => []
  | f + 1, i =>
    if i < imax then
      if x (i - 1) < x i then
        let ia := aheadIdx x imax (x i) imax (i + 1)
        if x ia < x i then (i + (ia - 1)) / 2 :: lmAux x imax f (ia + 1)
        else lmAux x imax f (i + 1)
      else lmAux x imax f (i + 1)
    else []

/-- All local maxima of a sample array, in increasing order (scipy's
`_local_maxima_1d`; edge samples are never maxima). -/
noncomputable def localMaxima (xs : List ℝ) : List ℕ :=
  lmAux (fun i => xs.getD i 0) (xs.length - 1) xs.length 1

/-- `scipy.signal._peak_finding_utils._select_by_peak_distance`: visit
peaks from highest to lowest priority (`np.argsort` order); each
still-kept peak removes all other peaks strictly closer than `dist`. -/
noncomputable def selectByPeakDistance (peaks : List ℕ) (pri : ℕ → ℝ) (dist : ℕ) :
    List ℕ :=
  let n := peaks.length
  let order := ((List.range n).mergeSort
    (fun a b => decide (pri (peaks.getD a 0) ≤ pri (peaks.getD b 0)))).reverse
  let keep := order.foldl
    (fun keep j =>
      if keep.getD j false then
        (List.range n).map fun m =>
          if m ≠ j ∧ ((peaks.getD m 0 : ℤ) - (peaks.getD j 0 : ℤ)).natAbs < dist then
            false
          else keep.getD m false
      else keep)
    (List.replicate n true)
  (List.range n).filterMap fun m =>
    if keep.getD m false then some (peaks.getD m 0) else none

/-- `scipy.signal.find_peaks(xs, distance=dist)` (the only conditions the
source passes, `ofdm_codec.py` line 284): positions of the kept local
maxima, in increasing order. -/
noncomputable def findPeaksDistance (xs : List ℝ) (dist : ℕ) : List ℕ :=
  selectByPeakDistance (localMaxima xs) (fun b => xs.getD b 0) dist

/-- The coarse stage of `findSymbolStartIndex` (`ofdm_codec.py` lines
277-285): the first peak `pks[0]` of the cross-correlation, `none` when
there is no peak (`pks[0]` raises `IndexError`). -/
noncomputable def coarseO1 (cfg : OFDM) (signal : List ℝ) (src : ℕ) : Option ℕ :=
  (findPeaksDistance (coarseCrosscorr cfg signal src) (cfg.nIFFT * 2)).head?

/-- `np.argmin` scan: first index of the minimum. -/
noncomputable def npArgminAux : List ℝ → ℝ → ℕ → ℕ → ℕ
  | [], _, _, bi => bi
  | v :: rest, bv, i, bi =>
    if v < bv then npArgminAux rest v (i + 1) i else npArgminAux rest bv (i + 1) bi

/-- `np.argmin` (first index attaining the minimum). -/
noncomputable def npArgmin : List ℝ → ℕ
  | [] => 0
  | v :: rest => npArgminAux rest v 1 0

/-- The fine-stage score array (`ofdm_codec.py` lines 288-292): for each
offset `o1 - w + j`, `j < 2w`, re-initialise decoding there and record the
`imPilots` score of `decode()` (which uses the default seed 1); `none` if
any decode would read out of range. -/
noncomputable def fineScores (cfg : OFDM) (rnd : ℕ → ℕ → ℕ) (signal : List ℝ)
    (o1 w : ℕ) : Option (List ℝ) :=
  (List.range (2 * w)).mapM fun j =>
    (OFDM.decode cfg rnd (OFDM.initDecode signal (o1 - w + j)) 1).map fun res => res.2.1

/-- The effective coarse search range: `searchrangecoarse = None` (or
`0`, falsy in Python's `if not searchrangecoarse:`) selects the default
`nIFFT * 10` (`ofdm_codec.py` lines 272-274). -/
def srcVal (cfg : OFDM) (searchrangecoarse : Option ℕ) : ℕ :=
  match searchrangecoarse with
  | some v => if v ≠ 0 then v else cfg.nIFFT * 10
  | none => cfg.nIFFT * 10

/-- The fine stage of `findSymbolStartIndex` (`ofdm_codec.py` lines
287-295): score the offsets `o1 - w + j`, `j < 2w`, and refine to
`o2 = o1 + argmin - w`.  `none` when the window would start at a negative
offset (numpy would silently index from the end of the signal:
unsupported) or when a decode would read out of range. -/
noncomputable def fineStage (cfg : OFDM) (rnd : ℕ → ℕ → ℕ) (signal : List ℝ)
    (o1 w : ℕ) : Option (List ℝ × ℕ) :=
  if o1 < w then none
  else match fineScores cfg rnd signal o1 w with
    | none => none
    | some imagpilots => some (imagpilots, o1 - w + npArgmin imagpilots)

/-- `OFDM.findSymbolStartIndex` (`ofdm_codec.py` lines 262-296).
Returns the cross-correlation array, the fine score array and the refined
offset `o2 = o1 + argmin - searchrangefine`.  `none` when the peak search
finds no peak (`pks[0]` raises `IndexError`) or when the fine stage
fails. -/
noncomputable def OFDM.findSymbolStartIndex (cfg : OFDM) (rnd : ℕ → ℕ → ℕ)
    (signal : List ℝ) (searchrangecoarse : Option ℕ) (searchrangefine : ℕ) :
    Option (List ℝ × List ℝ × ℕ) :=
  let crosscorr := coarseCrosscorr cfg signal (srcVal cfg searchrangecoarse)
  match (findPeaksDistance crosscorr (cfg.nIFFT * 2)).head? with
  | none => none
  | some o1 =>
      (fineStage cfg rnd signal o1 searchrangefine).map fun pr =>
        (crosscorr, pr.1, pr.2)

/-- Run length of consecutive samples strictly above the threshold `t`,
scanning right from index `i` (inclusive) within the first `n` samples. -/
noncomputable def runR (x : ℕ → ℝ) (t : ℝ) (n : ℕ) : ℕ → ℕ → ℕ
  | 0, _ => 0
  | f + 1, i => if i < n ∧ t < x i then 1 + runR x t n f (i + 1) else 0

/-- Run length of consecutive samples strictly above the threshold `t`,
scanning left from index `i` (inclusive) down to index `0`. -/
noncomputable def runL (x : ℕ → ℝ) (t : ℝ) : ℕ → ℕ → ℕ
  | 0, _ => 0
  | f + 1, i =>
    if t < x i then (if i = 0 then 1 else 1 + runL x t f (i - 1)) else 0

/-- Half-height width of the peak of `xs` at `p`: the length of the maximal
run of consecutive samples around `p` that stay strictly above half the
peak value. -/
noncomputable def peakWidthHalf (xs : List ℝ) (p : ℕ) : ℕ :=
  runR (fun i => xs.getD i 0) (xs.getD p 0 / 2) xs.length xs.length p +
    (if p = 0 then 0
     else runL (fun i => xs.getD i 0) (xs.getD p 0 / 2) xs.length (p - 1))

/-- The coarse stage as the spec words it (for comparison with `coarseO1`,
which embeds the source): the peaks of the cross-correlation are required
to keep a minimum inter-peak distance of `2N` *and* a minimum width of
`nCyclic / 2` (width taken at half height), and the first surviving peak
is the coarse offset. -/
noncomputable def claimedCoarseO1 (cfg : OFDM) (signal : List ℝ) (src : ℕ) :
    Option ℕ :=
  let cc := coarseCrosscorr cfg signal src
  ((findPeaksDistance cc (cfg.nIFFT * 2)).filter
    (fun p => decide (cfg.nCyclic / 2 ≤ peakWidthHalf cc p))).head?

/-! ## Basic lemmas -/

theorem wrapInc_eq_mod {n : ℕ} (k : ℕ) (hk : k < n) : wrapInc n k = (k + 1) % n := by
  unfold wrapInc
  by_cases h : k + 1 < n
  · rw [if_pos h, Nat.mod_eq_of_lt h]
  · have hkn : k + 1 = n := by omega
    rw [if_neg h, hkn, Nat.mod_self]

theorem wrapInc_lt {n : ℕ} (k : ℕ) (hn : 0 < n) : wrapInc n k < n := by
  unfold wrapInc
  by_cases h : k + 1 < n
  · rwa [if_pos h]
  · rwa [if_neg h]

theorem nyquistModAux_length (s : ℝ) (cs : List ℂ) :
    (nyquistModAux s cs).length = 2 * cs.length := by
  induction cs generalizing s with
  | nil => rfl
  | cons c rest ih => simp [nyquistModAux, ih]; ring

theorem nyquistMod_length (cs : List ℂ) : (nyquistMod cs).length = 2 * cs.length :=
  nyquistModAux_length 1 cs

theorem negSlice_length (xs : List ℝ) (c : ℕ) (h0 : 0 < c) (hle : c ≤ xs.length) :
    (negSlice xs c).length = c := by
  unfold negSlice
  rw [if_neg (by omega), List.length_drop]
  omega

/-! ## DFT inversion (`np.fft.fft ∘ np.fft.ifft = id`) -/

theorem sum_zmod_eq_sum_range {N : ℕ} [NeZero N] (g : ZMod N → ℂ) :
    ∑ j : ZMod N, g j = ∑ i ∈ Finset.range N, g (i : ZMod N) := by
  rw [← Fin.sum_univ_eq_sum_range (fun i => g (i : ZMod N)) N]
  refine (Fintype.sum_bijective (fun i : Fin N => ((i : ℕ) : ZMod N)) ?_ _ _ fun i => rfl).symm
  constructor
  · intro a b hab
    have ha := ZMod.val_cast_of_lt a.isLt
    have hb := ZMod.val_cast_of_lt b.isLt
    have hv : (((a : ℕ) : ZMod N)).val = (((b : ℕ) : ZMod N)).val := by
      simpa using congrArg ZMod.val hab
    exact Fin.ext (by rw [← ha, ← hb, hv])
  · intro b
    exact ⟨⟨b.val, ZMod.val_lt b⟩, ZMod.natCast_zmod_val b⟩

theorem npifft_eq_invDFT {N : ℕ} [NeZero N] (X : ℕ → ℂ) (m : ℕ) :
    npifft N X m = (ZMod.dft (E := ℂ)).symm (fun j : ZMod N => X j.val) (m : ZMod N) := by
  rw [ZMod.invDFT_apply, smul_eq_mul, sum_zmod_eq_sum_range, npifft]
  congr 1
  refine Finset.sum_congr rfl fun k hk => ?_
  have hkN : k < N := Finset.mem_range.mp hk
  have hval : ((k : ZMod N)).val = k := ZMod.val_cast_of_lt hkN
  have hchar : ZMod.stdAddChar ((k : ZMod N) * (m : ZMod N)) =
      Complex.exp (2 * Real.pi * Complex.I * k * m / N) := by
    have : ((k : ZMod N) * (m : ZMod N)) = (((k * m : ℕ) : ℤ) : ZMod N) := by push_cast; ring
    rw [this, ZMod.stdAddChar_coe]
    push_cast
    ring_nf
  rw [smul_eq_mul, hval, hchar]
  ring

theorem npfft_eq_dft {N : ℕ} [NeZero N] (x : ℕ → ℂ) (m : ℕ) :
    npfft N x m = ZMod.dft (fun j : ZMod N => x j.val) (m : ZMod N) := by
  rw [ZMod.dft_apply, sum_zmod_eq_sum_range, npfft]
  refine Finset.sum_congr rfl fun k hk => ?_
  have hkN : k < N := Finset.mem_range.mp hk
  have hval : ((k : ZMod N)).val = k := ZMod.val_cast_of_lt hkN
  have hchar : ZMod.stdAddChar (-((k : ZMod N) * (m : ZMod N))) =
      Complex.exp (-(2 * Real.pi * Complex.I * k * m / N)) := by
    have : (-((k : ZMod N) * (m : ZMod N))) = (((-(k * m : ℤ)) : ℤ) : ZMod N) := by
      push_cast; ring
    rw [this, ZMod.stdAddChar_coe]
    push_cast
    ring_nf
  rw [smul_eq_mul, hval, hchar]
  ring

/-- Discrete Fourier inversion in numpy's conventions: `fft` after `ifft`
returns the input spectrum on indices `k < N`. -/
theorem npfft_npifft {N : ℕ} [NeZero N] (X : ℕ → ℂ) (k : ℕ) (hk : k < N) :
    npfft N (fun n => npifft N X n) k = X k := by
  rw [npfft_eq_dft]
  have hfun : (fun j : ZMod N => npifft N X j.val) =
      (ZMod.dft (E := ℂ)).symm (fun j : ZMod N => X j.val) := by
    funext j
    rw [npifft_eq_invDFT, ZMod.natCast_zmod_val]
  rw [hfun, LinearEquiv.apply_symm_apply]
  exact congrArg X (ZMod.val_cast_of_lt hk)

/-! ## Claim C7: the derived first active bin index -/

/-- **C7.** For every configuration with FFT length `N`, pilot distance
`d` and payload size `nData`, the `k_start` computed by the constructor
equals `int(N - N/(2d) - 2·nData)` with Python's `int()` truncation:
the constructor's `N - N/d/2 - nData*4/2` is the same rational number. -/
theorem kstart_formula (nFreqSamples pilotDistanceInSamples : ℕ) (pilotAmplitude : ℚ)
    (nData : ℕ) (nCyclic : Option ℕ) :
    (OFDM.init nFreqSamples pilotDistanceInSamples pilotAmplitude nData nCyclic).k_start
      = pytrunc ((nFreqSamples : ℚ) -
          (nFreqSamples : ℚ) / (2 * (pilotDistanceInSamples : ℚ)) - 2 * (nData : ℚ)) := by
  show pytrunc _ = pytrunc _
  congr 1
  rw [div_div]
  ring_nf

/-! ## Claim C3: scrambler involution and mask agreement -/

theorem scrambleFrom_involution (rnd : ℕ → ℕ) (i : ℕ) (bs : List ℕ) :
    scrambleFrom rnd i (scrambleFrom rnd i bs) = bs := by
  induction bs generalizing i with
  | nil => rfl
  | cons b rest ih => simp [scrambleFrom, Nat.xor_cancel_right, ih]

theorem scrambleFrom_getD (rnd : ℕ → ℕ) (i x : ℕ) (bs : List ℕ) (hx : x < bs.length) :
    (scrambleFrom rnd i bs).getD x 0 = bs.getD x 0 ^^^ rnd (i + x) := by
  induction bs generalizing i x with
  | nil => simp at hx
  | cons b rest ih =>
      cases x with
      | zero => simp [scrambleFrom]
      | succ x =>
          have : (i + 1) + x = i + (x + 1) := by ring
          simpa [scrambleFrom, this] using ih (i + 1) x (by simpa using hx)

/-- **C3.** Applying the energy-dispersal scrambler twice with the same
stream restores the input; the mask bytes `encode` consumes equal those
`decode` consumes for the same seed; and the encoder's inline
`databyte ^ r` loop equals scrambling the payload first and then mapping
it, so encoder and decoder act through the same mask stream. -/
theorem scrambler_involution (cfg : OFDM) (rnd : ℕ → ℕ → ℕ) (seed : ℕ)
    (mask : ℕ → ℕ) (i : ℕ) (bs : List ℕ) (data : List ℕ)
    (h : cfg.nData ≤ data.length) :
    scrambleFrom mask i (scrambleFrom mask i bs) = bs
    ∧ OFDM.encodeMask cfg rnd seed = OFDM.decodeMask cfg rnd seed
    ∧ encodeSpectrum cfg (rnd seed) data = encodeSpectrumRaw cfg (scramble (rnd seed) data) := by
  refine ⟨scrambleFrom_involution mask i bs, rfl, ?_⟩
  unfold encodeSpectrum encodeSpectrumRaw
  refine List.foldl_ext _ _ _ fun st x hx => ?_
  have hxn : x < cfg.nData := List.mem_range.mp hx
  rw [scramble, scrambleFrom_getD (rnd seed) 0 x data (by omega), Nat.zero_add]

/-- Witness for C3 at a concrete configuration and payload. -/
theorem scrambler_involution_witness :
    scrambleFrom (fun j => j + 3) 1 (scrambleFrom (fun j => j + 3) 1 [5, 250]) = [5, 250]
    ∧ OFDM.encodeMask (OFDM.init 8 16 2 2 none) (fun s j => s + j) 1
        = OFDM.decodeMask (OFDM.init 8 16 2 2 none) (fun s j => s + j) 1
    ∧ encodeSpectrum (OFDM.init 8 16 2 2 none) ((fun s j => s + j) 1) [5, 250]
        = encodeSpectrumRaw (OFDM.init 8 16 2 2 none)
            (scramble ((fun s j => s + j) 1) [5, 250]) :=
  scrambler_involution (OFDM.init 8 16 2 2 none) (fun s j => s + j) 1
    (fun j => j + 3) 1 [5, 250] [5, 250] (by decide)

/-! ## Claim C4: the length law -/

/-- **C4.** A successful `encode` appends exactly
`nCyclic + 2·nIFFT` real samples — the cyclic-prefix real-sample length
plus twice the FFT length — independent of the payload values, and the
Nyquist-modulated body always has exactly twice as many real samples as
the complex IFFT output. -/
theorem encode_length_law (cfg : OFDM) (rnd : ℕ → ℕ → ℕ) (signal : List ℝ)
    (data : List ℕ) (randomSeed : ℕ) (out : List ℝ)
    (hc0 : 0 < cfg.nCyclic) (hc2 : cfg.nCyclic ≤ 2 * cfg.nIFFT)
    (henc : OFDM.encode cfg rnd signal data randomSeed = some out) :
    out.length = signal.length + (cfg.nCyclic + 2 * cfg.nIFFT)
    ∧ ∀ cs : List ℂ, (nyquistMod cs).length = 2 * cs.length := by
  refine ⟨?_, nyquistMod_length⟩
  rw [OFDM.encode] at henc
  split at henc
  · exact absurd henc (by simp)
  · injection henc with h
    subst h
    have htx : (nyquistMod (List.ofFn fun n : Fin cfg.nIFFT =>
        npifft cfg.nIFFT
          (fun k => toC ((encodeSpectrum cfg (rnd randomSeed) data).spectrum k))
          n.val)).length = 2 * cfg.nIFFT := by
      rw [nyquistMod_length, List.length_ofFn]
    rw [List.length_append, List.length_append, htx,
      negSlice_length _ _ hc0 (htx ▸ hc2)]
    ring

/-- Witness for C4: the default-parameter configuration on an 8-bin FFT
with a 2-byte payload. -/
theorem encode_length_law_witness :
    ((OFDM.encode (OFDM.init 8 16 2 2 none) (fun _ _ => 0) [] [37, 201] 1).getD []).length
      = ([] : List ℝ).length + ((OFDM.init 8 16 2 2 none).nCyclic + 2 * (OFDM.init 8 16 2 2 none).nIFFT) :=
  (encode_length_law (OFDM.init 8 16 2 2 none) (fun _ _ => 0) [] [37, 201] 1
    ((OFDM.encode (OFDM.init 8 16 2 2 none) (fun _ _ => 0) [] [37, 201] 1).getD [])
    (by decide) (by decide) rfl).1

/-! ## Claim C8: the Nyquist quadrature (de)modulator -/

theorem nyquistModAux_getD_even (cs : List ℂ) (s : ℝ) (n : ℕ) (hn : n < cs.length) :
    (nyquistModAux s cs).getD (2 * n) 0 = (-1) ^ n * s * (cs.getD n 0).re := by
  induction cs generalizing s n with
  | nil => simp at hn
  | cons c rest ih =>
      cases n with
      | zero => simp [nyquistModAux]
      | succ n =>
          have h2 : 2 * (n + 1) = (2 * n) + 1 + 1 := by ring
          rw [h2]
          simp only [nyquistModAux, List.getD_cons_succ]
          rw [ih (s * -1) n (by simpa using hn), pow_succ]
          ring

theorem nyquistModAux_getD_odd (cs : List ℂ) (s : ℝ) (n : ℕ) (hn : n < cs.length) :
    (nyquistModAux s cs).getD (2 * n + 1) 0 = (-1) ^ n * s * (cs.getD n 0).im := by
  induction cs generalizing s n with
  | nil => simp at hn
  | cons c rest ih =>
      cases n with
      | zero => simp [nyquistModAux]
      | succ n =>
          have h2 : 2 * (n + 1) + 1 = ((2 * n) + 1) + 1 + 1 := by ring
          rw [h2]
          simp only [nyquistModAux, List.getD_cons_succ]
          rw [ih (s * -1) n (by simpa using hn), pow_succ]
          ring

/-- The demodulator loop inverts the modulator loop: if `sig` agrees,
from `idx` on, with the modulated stream of `cs` (sign seed `s ∈ {±1}`),
then demodulating `cs.length` samples returns `cs` exactly. -/
theorem nyquistDemodAux_modAux (cs : List ℂ) (s : ℝ) (idx : ℕ) (sig : ℕ → ℝ)
    (hs : s = 1 ∨ s = -1)
    (hsig : ∀ i, i < 2 * cs.length → sig (idx + i) = (nyquistModAux s cs).getD i 0) :
    nyquistDemodAux sig s idx cs.length = cs := by
  induction cs generalizing s idx with
  | nil => rfl
  | cons c rest ih =>
      have hs2 : s * s = 1 := by rcases hs with h | h <;> rw [h] <;> norm_num
      have h0 : sig idx = s * c.re := by
        have := hsig 0 (by simp only [List.length_cons]; omega)
        simpa [nyquistModAux] using this
      have h1 : sig (idx + 1) = s * c.im := by
        have := hsig 1 (by simp only [List.length_cons]; omega)
        simpa [nyquistModAux] using this
      have hrest : nyquistDemodAux sig (s * -1) (idx + 2) rest.length = rest := by
        refine ih (s * -1) (idx + 2) ?_ ?_
        · rcases hs with h | h <;> rw [h] <;> [right; left] <;> norm_num
        · intro i hi
          have h := hsig (i + 2)
            (by simp only [List.length_cons] at hi ⊢; omega)
          rw [show idx + (i + 2) = idx + 2 + i from by ring] at h
          have hred : (nyquistModAux s (c :: rest)).getD (i + 2) 0
              = (nyquistModAux (s * -1) rest).getD i 0 := rfl
          rw [hred] at h
          exact h
      show (⟨s * sig idx, s * sig (idx + 1)⟩ : ℂ) :: _ = c :: rest
      rw [h0, h1, hrest]
      congr 1
      apply Complex.ext <;> simp [← mul_assoc, hs2]

/-- **C8.** The Nyquist quadrature modulator inside `encode` maps the
length-`L` complex IFFT output `cs` to a real stream with
`x[2n] = (-1)^n·Re cs[n]` and `x[2n+1] = (-1)^n·Im cs[n]`, and the
demodulator loop inside `decode` (started with sign `s = 1` as by
`initDecode`) inverts this mapping exactly. -/
theorem nyquist_mod_demod (cs : List ℂ) (n : ℕ) (hn : n < cs.length) :
    (nyquistMod cs).getD (2 * n) 0 = (-1) ^ n * (cs.getD n 0).re
    ∧ (nyquistMod cs).getD (2 * n + 1) 0 = (-1) ^ n * (cs.getD n 0).im
    ∧ nyquistDemodAux (fun i => (nyquistMod cs).getD i 0) 1 0 cs.length = cs := by
  refine ⟨?_, ?_, ?_⟩
  · rw [nyquistMod, nyquistModAux_getD_even cs 1 n hn]; ring
  · rw [nyquistMod, nyquistModAux_getD_odd cs 1 n hn]; ring
  · exact nyquistDemodAux_modAux cs 1 0 _ (Or.inl rfl)
      (fun i _ => by rw [Nat.zero_add]; rfl)

/-- Witness for C8 on a concrete two-sample complex sequence. -/
theorem nyquist_mod_demod_witness :
    (nyquistMod [⟨1, 2⟩, ⟨3, 4⟩]).getD (2 * 1) 0 = (-1) ^ 1 * (([⟨1, 2⟩, ⟨3, 4⟩] : List ℂ).getD 1 0).re
    ∧ (nyquistMod [⟨1, 2⟩, ⟨3, 4⟩]).getD (2 * 1 + 1) 0 = (-1) ^ 1 * (([⟨1, 2⟩, ⟨3, 4⟩] : List ℂ).getD 1 0).im
    ∧ nyquistDemodAux (fun i => (nyquistMod [⟨1, 2⟩, ⟨3, 4⟩]).getD i 0) 1 0
        ([⟨1, 2⟩, ⟨3, 4⟩] : List ℂ).length = [⟨1, 2⟩, ⟨3, 4⟩] :=
  nyquist_mod_demod [⟨1, 2⟩, ⟨3, 4⟩] 1 (by simp)

/-! ## Traversal correspondence: the encoder as a fold over the schedule -/

/-- `cnumStep` with the QPSK point passed directly (the point of byte `b`
at `cnum = c` is `(bitval b (2c), bitval b (2c+1))`). -/
def pointStep (cfg : OFDM) (st : EncSt) (p : ℚ × ℚ) : EncSt :=
  let pc := st.pilot_counter - 1
  let st1 : EncSt :=
    if pc = 0 then
      { k := wrapInc cfg.nIFFT st.k
        pilot_counter := (cfg.pilot_distance : ℚ)
        spectrum := Function.update st.spectrum st.k (cfg.pilot_amplitude, 0) }
    else { st with pilot_counter := pc }
  { k := wrapInc cfg.nIFFT st1.k
    pilot_counter := st1.pilot_counter
    spectrum := Function.update st1.spectrum st1.k p }

/-- The encoder-spectrum loop, point by point. -/
def encPoints (cfg : OFDM) (st : EncSt) (ps : List (ℚ × ℚ)) : EncSt :=
  ps.foldl (pointStep cfg) st

theorem cnumStep_eq_pointStep (cfg : OFDM) (b : ℕ) (st : EncSt) (c : ℕ) :
    cnumStep cfg b st c = pointStep cfg st (bitval b (2 * c), bitval b (2 * c + 1)) := rfl

theorem encByte_eq_encPoints (cfg : OFDM) (st : EncSt) (b : ℕ) :
    encByte cfg st b = encPoints cfg st (pointsOfByte b) := rfl

/-- One point-step, described by the schedule. -/
theorem encPoints_eq_applyWrites (cfg : OFDM) (ps : List (ℚ × ℚ)) :
    ∀ (k : ℕ) (pc : ℚ) (sp : ℕ → ℚ × ℚ),
      encPoints cfg ⟨k, pc, sp⟩ ps =
        ⟨(travEnd cfg pc k ps.length).1, (travEnd cfg pc k ps.length).2,
         applyWrites sp (wrEvents cfg pc k ps)⟩ := by
  induction ps with
  | nil => intro k pc sp; rfl
  | cons p rest ih =>
      intro k pc sp
      by_cases h : pc - 1 = 0
      · show encPoints cfg (pointStep cfg ⟨k, pc, sp⟩ p) rest = _
        rw [show pointStep cfg ⟨k, pc, sp⟩ p =
            ⟨wrapInc cfg.nIFFT (wrapInc cfg.nIFFT k), (cfg.pilot_distance : ℚ),
              Function.update (Function.update sp k (cfg.pilot_amplitude, 0))
                (wrapInc cfg.nIFFT k) p⟩ from by
          simp [pointStep, h]]
        rw [ih]
        show _ = (⟨(travEnd cfg pc k (rest.length + 1)).1,
          (travEnd cfg pc k (rest.length + 1)).2,
          applyWrites sp (wrEvents cfg pc k (p :: rest))⟩ : EncSt)
        rw [show travEnd cfg pc k (rest.length + 1) =
            travEnd cfg (cfg.pilot_distance : ℚ)
              (wrapInc cfg.nIFFT (wrapInc cfg.nIFFT k)) rest.length from by
          show travEnd cfg pc k (rest.length + 1) = _
          rw [travEnd]
          simp [h]]
        rw [show wrEvents cfg pc k (p :: rest) =
            (BinEv.pilot k, (cfg.pilot_amplitude, 0)) ::
              (BinEv.data (wrapInc cfg.nIFFT k), p) ::
              wrEvents cfg (cfg.pilot_distance : ℚ)
                (wrapInc cfg.nIFFT (wrapInc cfg.nIFFT k)) rest from by
          rw [wrEvents]
          simp [h]]
        rfl
      · show encPoints cfg (pointStep cfg ⟨k, pc, sp⟩ p) rest = _
        rw [show pointStep cfg ⟨k, pc, sp⟩ p =
            ⟨wrapInc cfg.nIFFT k, pc - 1, Function.update sp k p⟩ from by
          simp [pointStep, h]]
        rw [ih]
        show _ = (⟨(travEnd cfg pc k (rest.length + 1)).1,
          (travEnd cfg pc k (rest.length + 1)).2,
          applyWrites sp (wrEvents cfg pc k (p :: rest))⟩ : EncSt)
        rw [show travEnd cfg pc k (rest.length + 1) =
            travEnd cfg (pc - 1) (wrapInc cfg.nIFFT k) rest.length from by
          rw [travEnd]
          simp [h]]
        rw [show wrEvents cfg pc k (p :: rest) =
            (BinEv.data k, p) :: wrEvents cfg (pc - 1) (wrapInc cfg.nIFFT k) rest from by
          rw [wrEvents]
          simp [h]]
        rfl

/-- The scrambled QPSK point stream `encode` consumes: four points per
byte, byte `x` scrambled with draw `rnd x`. -/
def allPoints (cfg : OFDM) (rnd : ℕ → ℕ) (data : List ℕ) : List (ℚ × ℚ) :=
  ((List.range cfg.nData).map fun x => pointsOfByte (data.getD x 0 ^^^ rnd x)).flatten

theorem allPoints_length (cfg : OFDM) (rnd : ℕ → ℕ) (data : List ℕ) :
    (allPoints cfg rnd data).length = 4 * cfg.nData := by
  unfold allPoints
  induction cfg.nData with
  | zero => rfl
  | succ n ih =>
      rw [List.range_succ, List.map_append, List.flatten_append, List.length_append, ih]
      simp [pointsOfByte]
      ring

theorem encPoints_append (cfg : OFDM) (st : EncSt) (ps qs : List (ℚ × ℚ)) :
    encPoints cfg st (ps ++ qs) = encPoints cfg (encPoints cfg st ps) qs :=
  List.foldl_append _ _ _ _

/-- `encodeSpectrum` is the point-by-point fold over the scrambled point
stream. -/
theorem encodeSpectrum_eq_encPoints (cfg : OFDM) (rnd : ℕ → ℕ) (data : List ℕ) :
    encodeSpectrum cfg rnd data =
      encPoints cfg ⟨cfg.kstart, (cfg.pilot_distance : ℚ) / 2, fun _ => (0, 0)⟩
        (allPoints cfg rnd data) := by
  have main : ∀ (n : ℕ) (st : EncSt),
      (List.range n).foldl (fun st x => encByte cfg st (data.getD x 0 ^^^ rnd x)) st =
        encPoints cfg st
          (((List.range n).map fun x => pointsOfByte (data.getD x 0 ^^^ rnd x)).flatten) := by
    intro n
    induction n with
    | zero => intro st; rfl
    | succ m ih =>
        intro st
        rw [List.range_succ, List.foldl_append, ih, List.map_append, List.flatten_append,
          encPoints_append]
        simp only [List.map_cons, List.map_nil, List.flatten_cons, List.flatten_nil,
          List.append_nil, List.foldl_cons, List.foldl_nil]
        exact encByte_eq_encPoints cfg _ _
  exact main cfg.nData _

/-- The full description of the encoder's spectrum assembly: final
traversal state and spectrum as schedule writes. -/
theorem encodeSpectrum_eq (cfg : OFDM) (rnd : ℕ → ℕ) (data : List ℕ) :
    encodeSpectrum cfg rnd data =
      ⟨(travEnd cfg ((cfg.pilot_distance : ℚ) / 2) cfg.kstart (4 * cfg.nData)).1,
       (travEnd cfg ((cfg.pilot_distance : ℚ) / 2) cfg.kstart (4 * cfg.nData)).2,
       applyWrites (fun _ => (0, 0))
         (wrEvents cfg ((cfg.pilot_distance : ℚ) / 2) cfg.kstart
           (allPoints cfg rnd data))⟩ := by
  rw [encodeSpectrum_eq_encPoints, encPoints_eq_applyWrites, allPoints_length]

/-! ## Schedule lemmas: positions, distinctness, read-back -/

/-- The bins touched by a write list, in order. -/
def evBins (ws : List (BinEv × (ℚ × ℚ))) : List ℕ := ws.map fun ev => ev.1.bin

theorem wrEvents_cons_pilot (cfg : OFDM) {pc : ℚ} (k : ℕ) (p : ℚ × ℚ)
    (ps : List (ℚ × ℚ)) (hc : pc - 1 = 0) :
    wrEvents cfg pc k (p :: ps) =
      (BinEv.pilot k, (cfg.pilot_amplitude, 0)) ::
        (BinEv.data (wrapInc cfg.nIFFT k), p) ::
        wrEvents cfg (cfg.pilot_distance : ℚ)
          (wrapInc cfg.nIFFT (wrapInc cfg.nIFFT k)) ps := by
  rw [wrEvents]
  simp [hc]

theorem wrEvents_cons_data (cfg : OFDM) {pc : ℚ} (k : ℕ) (p : ℚ × ℚ)
    (ps : List (ℚ × ℚ)) (hc : ¬pc - 1 = 0) :
    wrEvents cfg pc k (p :: ps) =
      (BinEv.data k, p) :: wrEvents cfg (pc - 1) (wrapInc cfg.nIFFT k) ps := by
  rw [wrEvents]
  simp [hc]

/-- The rational-countdown schedule equals the doubled-integer-countdown
schedule: a countdown value `z/2` is represented by the integer `z`. -/
theorem wrEvents2_eq (cfg : OFDM) :
    ∀ (ps : List (ℚ × ℚ)) (z : ℤ) (k : ℕ),
      wrEvents cfg ((z : ℚ) / 2) k ps = wrEvents2 cfg z k ps := by
  intro ps
  induction ps with
  | nil => intro z k; rfl
  | cons p rest ih =>
      intro z k
      have hcond : ((z : ℚ) / 2 - 1 = 0) ↔ (z - 2 = 0) := by
        constructor
        · intro h
          have h2 : (z : ℚ) = 2 := by
            field_simp at h
            linarith
          have : z = 2 := by exact_mod_cast h2
          omega
        · intro h
          have : z = 2 := by omega
          subst this
          norm_num
      by_cases hc : z - 2 = 0
      · rw [wrEvents_cons_pilot cfg k p rest (hcond.mpr hc)]
        rw [show wrEvents2 cfg z k (p :: rest) =
            (BinEv.pilot k, (cfg.pilot_amplitude, 0)) ::
              (BinEv.data (wrapInc cfg.nIFFT k), p) ::
              wrEvents2 cfg (2 * (cfg.pilot_distance : ℤ))
                (wrapInc cfg.nIFFT (wrapInc cfg.nIFFT k)) rest from by
          rw [wrEvents2]; simp [hc]]
        have hd : ((cfg.pilot_distance : ℚ)) = (((2 * (cfg.pilot_distance : ℤ) : ℤ) : ℚ)) / 2 := by
          push_cast
          ring
        rw [hd, ih]
      · rw [wrEvents_cons_data cfg k p rest (fun h => hc (hcond.mp h))]
        rw [show wrEvents2 cfg z k (p :: rest) =
            (BinEv.data k, p) :: wrEvents2 cfg (z - 2) (wrapInc cfg.nIFFT k) rest from by
          rw [wrEvents2]; simp [hc]]
        have hz : (z : ℚ) / 2 - 1 = (((z - 2 : ℤ) : ℚ)) / 2 := by
          push_cast
          ring
        rw [hz, ih]

/-- The schedule `encode` and `decode` actually follow (countdown
starting at `pilot_distance / 2`) in its kernel-computable form. -/
theorem wrEvents_half_eq (cfg : OFDM) (ps : List (ℚ × ℚ)) (k : ℕ) :
    wrEvents cfg ((cfg.pilot_distance : ℚ) / 2) k ps =
      wrEvents2 cfg (cfg.pilot_distance : ℤ) k ps := by
  have h : ((cfg.pilot_distance : ℚ)) / 2 = (((cfg.pilot_distance : ℤ) : ℚ)) / 2 := by
    push_cast
    ring
  rw [h, wrEvents2_eq]

/-- The event tags (and hence the bins) of the schedule depend only on
how many points are consumed, not on their values. -/
theorem wrEvents_map_fst_congr (cfg : OFDM) :
    ∀ (ps qs : List (ℚ × ℚ)) (pc : ℚ) (k : ℕ), ps.length = qs.length →
      (wrEvents cfg pc k ps).map Prod.fst = (wrEvents cfg pc k qs).map Prod.fst := by
  intro ps
  induction ps with
  | nil =>
      intro qs pc k h
      cases qs with
      | nil => rfl
      | cons q qs => simp at h
  | cons p ps ih =>
      intro qs pc k h
      cases qs with
      | nil => simp at h
      | cons q qs =>
          have hlen : ps.length = qs.length := by simpa using h
          by_cases hc : pc - 1 = 0
          · rw [wrEvents_cons_pilot cfg k p ps hc, wrEvents_cons_pilot cfg k q qs hc,
              List.map_cons, List.map_cons, List.map_cons, List.map_cons, ih qs _ _ hlen]
          · rw [wrEvents_cons_data cfg k p ps hc, wrEvents_cons_data cfg k q qs hc,
              List.map_cons, List.map_cons, ih qs _ _ hlen]

theorem wrEvents_length_congr (cfg : OFDM) (ps qs : List (ℚ × ℚ)) (pc : ℚ) (k : ℕ)
    (h : ps.length = qs.length) :
    (wrEvents cfg pc k ps).length = (wrEvents cfg pc k qs).length := by
  rw [← List.length_map (wrEvents cfg pc k ps) Prod.fst,
    wrEvents_map_fst_congr cfg ps qs pc k h, List.length_map]

/-- Every bin in the schedule starting at `k < N` is `(k + j) % N` for
its write index `j`. -/
theorem wrEvents_bins (cfg : OFDM) (hN : 0 < cfg.nIFFT) :
    ∀ (ps : List (ℚ × ℚ)) (pc : ℚ) (k : ℕ), k < cfg.nIFFT →
      evBins (wrEvents cfg pc k ps) =
        (List.range (wrEvents cfg pc k ps).length).map
          (fun j => (k + j) % cfg.nIFFT) := by
  intro ps
  induction ps with
  | nil => intro pc k hk; rfl
  | cons p rest ih =>
      intro pc k hk
      have hw1 : wrapInc cfg.nIFFT k = (k + 1) % cfg.nIFFT := wrapInc_eq_mod k hk
      have hw1lt : wrapInc cfg.nIFFT k < cfg.nIFFT := wrapInc_lt k hN
      have hrange1 : ∀ L : ℕ, List.range (L + 1) = 0 :: (List.range L).map (fun j => j + 1) := by
        intro L
        rw [List.range_succ_eq_map]
      have hrange2 : ∀ L : ℕ,
          List.range (L + 2) = 0 :: 1 :: (List.range L).map (fun j => j + 2) := by
        intro L
        rw [show L + 2 = (L + 1) + 1 from rfl, hrange1 (L + 1), hrange1 L]
        simp only [List.map_cons, List.map_map]
        rfl
      by_cases hc : pc - 1 = 0
      · have hw2 : wrapInc cfg.nIFFT (wrapInc cfg.nIFFT k) = (k + 2) % cfg.nIFFT := by
          rw [wrapInc_eq_mod _ hw1lt, hw1, Nat.mod_add_mod]
        have hw2lt : wrapInc cfg.nIFFT (wrapInc cfg.nIFFT k) < cfg.nIFFT :=
          wrapInc_lt _ hN
        rw [wrEvents_cons_pilot cfg k p rest hc]
        show k :: wrapInc cfg.nIFFT k :: evBins (wrEvents cfg (cfg.pilot_distance : ℚ)
            (wrapInc cfg.nIFFT (wrapInc cfg.nIFFT k)) rest) = _
        rw [ih _ _ hw2lt]
        rw [show ((BinEv.pilot k, ((cfg.pilot_amplitude : ℚ), (0 : ℚ))) ::
            (BinEv.data (wrapInc cfg.nIFFT k), p) :: wrEvents cfg (cfg.pilot_distance : ℚ)
              (wrapInc cfg.nIFFT (wrapInc cfg.nIFFT k)) rest).length =
            (wrEvents cfg (cfg.pilot_distance : ℚ)
              (wrapInc cfg.nIFFT (wrapInc cfg.nIFFT k)) rest).length + 2 from by simp]
        rw [hrange2, List.map_cons, List.map_cons, List.map_map]
        have h0 : k = (k + 0) % cfg.nIFFT := by rw [Nat.add_zero, Nat.mod_eq_of_lt hk]
        refine congrArg₂ List.cons h0 ?_
        refine congrArg₂ List.cons hw1 ?_
        refine List.map_congr_left fun j _ => ?_
        show (wrapInc cfg.nIFFT (wrapInc cfg.nIFFT k) + j) % cfg.nIFFT = (k + (j + 2)) % cfg.nIFFT
        rw [hw2, Nat.mod_add_mod]
        congr 1
        omega
      · rw [wrEvents_cons_data cfg k p rest hc]
        show k :: evBins (wrEvents cfg (pc - 1) (wrapInc cfg.nIFFT k) rest) = _
        rw [ih _ _ hw1lt]
        rw [show ((BinEv.data k, p) ::
            wrEvents cfg (pc - 1) (wrapInc cfg.nIFFT k) rest).length =
            (wrEvents cfg (pc - 1) (wrapInc cfg.nIFFT k) rest).length + 1 from by simp]
        rw [hrange1, List.map_cons, List.map_map]
        have h0 : k = (k + 0) % cfg.nIFFT := by rw [Nat.add_zero, Nat.mod_eq_of_lt hk]
        refine congrArg₂ List.cons h0 ?_
        refine List.map_congr_left fun j _ => ?_
        show (wrapInc cfg.nIFFT k + j) % cfg.nIFFT = (k + (j + 1)) % cfg.nIFFT
        rw [hw1, Nat.mod_add_mod]
        congr 1
        omega

/-- When at most `N` bins are written, all written bins are distinct. -/
theorem wrEvents_bins_nodup (cfg : OFDM) (hN : 0 < cfg.nIFFT)
    (ps : List (ℚ × ℚ)) (pc : ℚ) (k : ℕ) (hk : k < cfg.nIFFT)
    (hle : (wrEvents cfg pc k ps).length ≤ cfg.nIFFT) :
    (evBins (wrEvents cfg pc k ps)).Nodup := by
  rw [wrEvents_bins cfg hN ps pc k hk]
  refine List.Nodup.map_on ?_ (List.nodup_range _)
  intro i hi j hj hij
  have hiL : i < (wrEvents cfg pc k ps).length := List.mem_range.mp hi
  have hjL : j < (wrEvents cfg pc k ps).length := List.mem_range.mp hj
  have hmod : i ≡ j [MOD cfg.nIFFT] := Nat.ModEq.add_left_cancel' k hij
  have : i % cfg.nIFFT = j % cfg.nIFFT := hmod
  rwa [Nat.mod_eq_of_lt (by omega), Nat.mod_eq_of_lt (by omega)] at this

theorem applyWrites_notMem (sp : ℕ → ℚ × ℚ) :
    ∀ (ws : List (BinEv × (ℚ × ℚ))) (b : ℕ), b ∉ evBins ws →
      applyWrites sp ws b = sp b := by
  intro ws
  induction ws generalizing sp with
  | nil => intro b _; rfl
  | cons ev rest ih =>
      intro b hb
      have hne : b ≠ ev.1.bin := fun h => hb (by simp [evBins, h])
      have hrest : b ∉ evBins rest := fun h => hb (by simp [evBins] at h ⊢; right; exact h)
      show applyWrites (Function.update sp ev.1.bin ev.2) rest b = sp b
      rw [ih _ _ hrest, Function.update_noteq hne]

theorem applyWrites_mem (sp : ℕ → ℚ × ℚ) :
    ∀ (ws : List (BinEv × (ℚ × ℚ))), (evBins ws).Nodup →
      ∀ e v, (e, v) ∈ ws → applyWrites sp ws e.bin = v := by
  intro ws
  induction ws generalizing sp with
  | nil => intro _ e v hv; simp at hv
  | cons ev rest ih =>
      intro hnd e v hmem
      have hnd' : (evBins rest).Nodup := (List.nodup_cons.mp hnd).2
      rcases List.mem_cons.mp hmem with heq | htail
      · subst heq
        have hnotin : e.bin ∉ evBins rest := (List.nodup_cons.mp hnd).1
        show applyWrites (Function.update sp e.bin v) rest e.bin = v
        rw [applyWrites_notMem _ _ _ hnotin, Function.update_same]
      · exact ih _ hnd' e v htail

/-- Pilot writes always carry the value `(pilot_amplitude, 0)`. -/
theorem wrEvents_pilot_val (cfg : OFDM) :
    ∀ (ps : List (ℚ × ℚ)) (pc : ℚ) (k b : ℕ) (v : ℚ × ℚ),
      (BinEv.pilot b, v) ∈ wrEvents cfg pc k ps → v = (cfg.pilot_amplitude, 0) := by
  intro ps
  induction ps with
  | nil => intro pc k b v h; simp [wrEvents] at h
  | cons p rest ih =>
      intro pc k b v h
      by_cases hc : pc - 1 = 0
      · rw [wrEvents_cons_pilot cfg k p rest hc] at h
        rcases List.mem_cons.mp h with h | h
        · exact ((Prod.mk.injEq _ _ _ _).mp h).2
        rcases List.mem_cons.mp h with h | h
        · exact absurd ((Prod.mk.injEq _ _ _ _).mp h).1 (by simp)
        · exact ih _ _ b v h
      · rw [wrEvents_cons_data cfg k p rest hc] at h
        rcases List.mem_cons.mp h with h | h
        · exact absurd ((Prod.mk.injEq _ _ _ _).mp h).1 (by simp)
        · exact ih _ _ b v h

theorem mem_pilotsOf_mem_bins {l : List BinEv} {b : ℕ} (h : b ∈ pilotsOf l) :
    b ∈ l.map BinEv.bin := by
  rcases List.mem_filterMap.mp h with ⟨e, he, heq⟩
  cases e with
  | pilot a => simp at heq; subst heq; exact List.mem_map.mpr ⟨_, he, rfl⟩
  | data a => simp at heq

theorem mem_datasOf_mem_bins {l : List BinEv} {b : ℕ} (h : b ∈ datasOf l) :
    b ∈ l.map BinEv.bin := by
  rcases List.mem_filterMap.mp h with ⟨e, he, heq⟩
  cases e with
  | pilot a => simp at heq
  | data a => simp at heq; subst heq; exact List.mem_map.mpr ⟨_, he, rfl⟩

/-- With all bins distinct, no bin is both a pilot bin and a data bin. -/
theorem pilots_datas_disjoint :
    ∀ (l : List BinEv), (l.map BinEv.bin).Nodup →
      ∀ b, b ∈ pilotsOf l → b ∈ datasOf l → False := by
  intro l
  induction l with
  | nil => intro _ b hp _; simp [pilotsOf] at hp
  | cons e rest ih =>
      intro hnd b hp hd
      have hnd' : (rest.map BinEv.bin).Nodup := (List.nodup_cons.mp hnd).2
      have hhead : e.bin ∉ rest.map BinEv.bin := (List.nodup_cons.mp hnd).1
      cases e with
      | pilot a =>
          have hd' : b ∈ datasOf rest := by simpa [datasOf, List.filterMap_cons] using hd
          rcases (by simpa [pilotsOf, List.filterMap_cons] using hp : b = a ∨ b ∈ pilotsOf rest) with
            rfl | hp'
          · exact hhead (by simpa [BinEv.bin] using mem_datasOf_mem_bins hd')
          · exact ih hnd' b hp' hd'
      | data a =>
          have hp' : b ∈ pilotsOf rest := by simpa [pilotsOf, List.filterMap_cons] using hp
          rcases (by simpa [datasOf, List.filterMap_cons] using hd : b = a ∨ b ∈ datasOf rest) with
            rfl | hd'
          · exact hhead (by simpa [BinEv.bin] using mem_pilotsOf_mem_bins hp')
          · exact ih hnd' b hp' hd'

/-- Every written bin is a pilot bin or a data bin, and conversely. -/
theorem mem_bins_iff (l : List BinEv) (b : ℕ) :
    b ∈ l.map BinEv.bin ↔ b ∈ pilotsOf l ∨ b ∈ datasOf l := by
  constructor
  · intro h
    rcases List.mem_map.mp h with ⟨e, he, heq⟩
    cases e with
    | pilot a =>
        left
        exact List.mem_filterMap.mpr ⟨_, he, by simpa [BinEv.bin] using congrArg some heq⟩
    | data a =>
        right
        exact List.mem_filterMap.mpr ⟨_, he, by simpa [BinEv.bin] using congrArg some heq⟩
  · intro h
    rcases h with h | h
    · exact mem_pilotsOf_mem_bins h
    · exact mem_datasOf_mem_bins h

/-! ## Claim C2: bin layout of the encoded spectrum -/

/-- A concrete configuration used by several concrete instances below:
exactly `OFDM.init 32 4 2 6 none` (verified in `exCfg_eq_init`). -/
def exCfg : OFDM := ⟨32, 6, 16, 4, 2, 16⟩

theorem exCfg_eq_init : OFDM.init 32 4 2 6 none = exCfg := by
  show (⟨32, 6, _, 4, 2, pytrunc _⟩ : OFDM) = _
  norm_num [OFDM.init, pytrunc]
  rfl

/-- **C2 (amended).** For every configuration whose write schedule fits in
the `N` bins (`numWrites ≤ nIFFT`), the pilot bins and the data bins are
disjoint, together they are exactly the active (written) bins, every
pilot bin of the encoded spectrum carries `(pilot_amplitude, 0)`, and all
bins outside the active set stay zero.  (The original claim's further
assertion that the DC bin `k = 0` is zero is false: see
`dc_bin_nonzero_counterexample` — the traversal wraps from bin `N-1` to
bin `0`, so in wrapping configurations, the default one included, DC
receives a pilot or data value.) -/
theorem spectrum_partition (cfg : OFDM) (rnd : ℕ → ℕ) (data : List ℕ)
    (hN : 0 < cfg.nIFFT) (hk : cfg.kstart < cfg.nIFFT)
    (hW : numWrites cfg ≤ cfg.nIFFT) :
    (∀ b, b ∈ pilotBinsL cfg → b ∈ dataBinsL cfg → False)
    ∧ (∀ b, b ∈ activeBinsL cfg ↔ b ∈ pilotBinsL cfg ∨ b ∈ dataBinsL cfg)
    ∧ (∀ b ∈ pilotBinsL cfg,
        (encodeSpectrum cfg rnd data).spectrum b = (cfg.pilot_amplitude, 0))
    ∧ (∀ b, b ∉ activeBinsL cfg →
        (encodeSpectrum cfg rnd data).spectrum b = (0, 0)) := by
  have hfst : (wrEvents cfg ((cfg.pilot_distance : ℚ) / 2) cfg.kstart
      (allPoints cfg rnd data)).map Prod.fst = symbolEvents cfg := by
    rw [symbolEvents, ← wrEvents_half_eq]
    exact wrEvents_map_fst_congr cfg _ _ _ _
      (by rw [allPoints_length, dummyPoints, List.length_replicate])
  have hbins : evBins (wrEvents cfg ((cfg.pilot_distance : ℚ) / 2) cfg.kstart
      (allPoints cfg rnd data)) = activeBinsL cfg := by
    rw [activeBinsL, ← hfst, evBins, List.map_map]
    rfl
  have hlen : (wrEvents cfg ((cfg.pilot_distance : ℚ) / 2) cfg.kstart
      (allPoints cfg rnd data)).length = numWrites cfg := by
    rw [numWrites, ← hfst, List.length_map]
  have hnd : (evBins (wrEvents cfg ((cfg.pilot_distance : ℚ) / 2) cfg.kstart
      (allPoints cfg rnd data))).Nodup :=
    wrEvents_bins_nodup cfg hN _ _ _ hk (by rw [hlen]; exact hW)
  have hndSym : ((symbolEvents cfg).map BinEv.bin).Nodup := by
    have : activeBinsL cfg = (symbolEvents cfg).map BinEv.bin := rfl
    rw [← this, ← hbins]
    exact hnd
  have hspec : (encodeSpectrum cfg rnd data).spectrum =
      applyWrites (fun _ => (0, 0)) (wrEvents cfg ((cfg.pilot_distance : ℚ) / 2)
        cfg.kstart (allPoints cfg rnd data)) := by
    rw [encodeSpectrum_eq]
  refine ⟨pilots_datas_disjoint _ hndSym, fun b => mem_bins_iff _ b, ?_, ?_⟩
  · intro b hb
    rcases List.mem_filterMap.mp hb with ⟨e, he, heq⟩
    cases e with
    | data a => simp at heq
    | pilot a =>
        have hab : a = b := by simpa using heq
        subst hab
        rcases List.mem_map.mp (hfst ▸ he) with ⟨⟨e', v⟩, hmem, hfst'⟩
        have he' : e' = BinEv.pilot a := hfst'
        subst he'
        have hv : v = (cfg.pilot_amplitude, 0) := wrEvents_pilot_val cfg _ _ _ _ _ hmem
        subst hv
        rw [hspec]
        exact applyWrites_mem _ _ hnd (BinEv.pilot a) _ hmem
  · intro b hb
    rw [hspec]
    exact applyWrites_notMem _ _ b (fun h => hb (hbins ▸ h))

set_option maxRecDepth 10000 in
/-- **C2 (counterexample).** In the constructor-produced configuration
`OFDM.init 32 4 2 6 none` (a legal wrapping configuration: 30 writes into
32 bins), encoding the all-zero payload puts the pilot amplitude `2` at
the DC bin `k = 0`, so the spectrum is *not* zero at DC as the claim
states. -/
theorem dc_bin_nonzero_counterexample :
    (encodeSpectrum (OFDM.init 32 4 2 6 none) ((fun _ _ => (0 : ℕ)) 1)
      [0, 0, 0, 0, 0, 0]).spectrum 0 = ((2 : ℚ), (0 : ℚ))
    ∧ ((2 : ℚ), (0 : ℚ)) ≠ ((0 : ℚ), (0 : ℚ)) := by
  constructor
  · rw [exCfg_eq_init, encodeSpectrum_eq]
    show applyWrites (fun _ => (0, 0)) (wrEvents exCfg ((exCfg.pilot_distance : ℚ) / 2)
      exCfg.kstart (allPoints exCfg ((fun _ _ => (0 : ℕ)) 1) [0, 0, 0, 0, 0, 0])) 0 = _
    rw [wrEvents_half_eq]
    decide
  · decide

/-- Witness for the amended C2 at the same concrete configuration. -/
theorem spectrum_partition_witness :
    (∀ b, b ∈ pilotBinsL exCfg → b ∈ dataBinsL exCfg → False)
    ∧ (∀ b, b ∈ activeBinsL exCfg ↔ b ∈ pilotBinsL exCfg ∨ b ∈ dataBinsL exCfg)
    ∧ (∀ b ∈ pilotBinsL exCfg,
        (encodeSpectrum exCfg (fun i => i + 7) [1, 2, 3, 4, 5, 6]).spectrum b
          = (exCfg.pilot_amplitude, 0))
    ∧ (∀ b, b ∉ activeBinsL exCfg →
        (encodeSpectrum exCfg (fun i => i + 7) [1, 2, 3, 4, 5, 6]).spectrum b = (0, 0)) :=
  spectrum_partition exCfg (fun i => i + 7) [1, 2, 3, 4, 5, 6]
    (by decide) (by decide) (by decide)

/-! ## Decoder traversal lemmas -/

theorem travEnd_succ_pilot (cfg : OFDM) {pc : ℚ} (k n : ℕ) (hc : pc - 1 = 0) :
    travEnd cfg pc k (n + 1) =
      travEnd cfg (cfg.pilot_distance : ℚ) (wrapInc cfg.nIFFT (wrapInc cfg.nIFFT k)) n := by
  rw [travEnd]
  simp [hc]

theorem travEnd_succ_data (cfg : OFDM) {pc : ℚ} (k n : ℕ) (hc : ¬pc - 1 = 0) :
    travEnd cfg pc k (n + 1) = travEnd cfg (pc - 1) (wrapInc cfg.nIFFT k) n := by
  rw [travEnd]
  simp [hc]

theorem pilotImSum_succ_pilot (cfg : OFDM) (isym : ℕ → ℂ) {pc : ℚ} (k n : ℕ)
    (hc : pc - 1 = 0) :
    pilotImSum cfg isym pc k (n + 1) =
      |(isym k).im| + pilotImSum cfg isym (cfg.pilot_distance : ℚ)
        (wrapInc cfg.nIFFT (wrapInc cfg.nIFFT k)) n := by
  rw [pilotImSum]
  simp [hc]

theorem pilotImSum_succ_data (cfg : OFDM) (isym : ℕ → ℂ) {pc : ℚ} (k n : ℕ)
    (hc : ¬pc - 1 = 0) :
    pilotImSum cfg isym pc k (n + 1) =
      pilotImSum cfg isym (pc - 1) (wrapInc cfg.nIFFT k) n := by
  rw [pilotImSum]
  simp [hc]

theorem travEnd_add (cfg : OFDM) :
    ∀ (m n : ℕ) (pc : ℚ) (k : ℕ),
      travEnd cfg pc k (m + n) =
        travEnd cfg (travEnd cfg pc k m).2 (travEnd cfg pc k m).1 n := by
  intro m
  induction m with
  | zero =>
      intro n pc k
      rw [Nat.zero_add]
      rfl
  | succ m ih =>
      intro n pc k
      by_cases hc : pc - 1 = 0
      · rw [show m + 1 + n = (m + n) + 1 from by omega, travEnd_succ_pilot cfg k (m + n) hc,
          travEnd_succ_pilot cfg k m hc, ih]
      · rw [show m + 1 + n = (m + n) + 1 from by omega, travEnd_succ_data cfg k (m + n) hc,
          travEnd_succ_data cfg k m hc, ih]

theorem pilotImSum_add (cfg : OFDM) (isym : ℕ → ℂ) :
    ∀ (m n : ℕ) (pc : ℚ) (k : ℕ),
      pilotImSum cfg isym pc k (m + n) =
        pilotImSum cfg isym pc k m +
          pilotImSum cfg isym (travEnd cfg pc k m).2 (travEnd cfg pc k m).1 n := by
  intro m
  induction m with
  | zero =>
      intro n pc k
      rw [Nat.zero_add]
      show pilotImSum cfg isym pc k n = 0 + pilotImSum cfg isym pc k n
      rw [zero_add]
  | succ m ih =>
      intro n pc k
      by_cases hc : pc - 1 = 0
      · rw [show m + 1 + n = (m + n) + 1 from by omega,
          pilotImSum_succ_pilot cfg isym k (m + n) hc,
          pilotImSum_succ_pilot cfg isym k m hc,
          travEnd_succ_pilot cfg k m hc, ih, add_assoc]
      · rw [show m + 1 + n = (m + n) + 1 from by omega,
          pilotImSum_succ_data cfg isym k (m + n) hc,
          pilotImSum_succ_data cfg isym k m hc,
          travEnd_succ_data cfg k m hc, ih]

theorem pilotImSum_nonneg (cfg : OFDM) (isym : ℕ → ℂ) :
    ∀ (n : ℕ) (pc : ℚ) (k : ℕ), 0 ≤ pilotImSum cfg isym pc k n := by
  intro n
  induction n with
  | zero => intro pc k; exact le_refl 0
  | succ n ih =>
      intro pc k
      by_cases hc : pc - 1 = 0
      · rw [pilotImSum_succ_pilot cfg isym k n hc]
        exact add_nonneg (abs_nonneg _) (ih _ _)
      · rw [pilotImSum_succ_data cfg isym k n hc]
        exact ih _ _

/-- `imPilots` accumulated over `n` steps is the sum of `|Im isym|` over
the pilot bins of the corresponding schedule. -/
theorem pilotImSum_eq_binsum (cfg : OFDM) (isym : ℕ → ℂ) :
    ∀ (n : ℕ) (pc : ℚ) (k : ℕ),
      pilotImSum cfg isym pc k n =
        ((pilotsOf ((wrEvents cfg pc k (dummyPoints n)).map Prod.fst)).map
          (fun b => |(isym b).im|)).sum := by
  intro n
  induction n with
  | zero => intro pc k; rfl
  | succ n ih =>
      intro pc k
      rw [show dummyPoints (n + 1) = (0, 0) :: dummyPoints n from List.replicate_succ _ _]
      by_cases hc : pc - 1 = 0
      · rw [pilotImSum_succ_pilot cfg isym k n hc, wrEvents_cons_pilot cfg k _ _ hc,
          List.map_cons, List.map_cons]
        show _ = ((pilotsOf (BinEv.pilot k :: BinEv.data (wrapInc cfg.nIFFT k) ::
          (wrEvents cfg (cfg.pilot_distance : ℚ)
            (wrapInc cfg.nIFFT (wrapInc cfg.nIFFT k)) (dummyPoints n)).map Prod.fst)).map
              (fun b => |(isym b).im|)).sum
        rw [show pilotsOf (BinEv.pilot k :: BinEv.data (wrapInc cfg.nIFFT k) ::
            (wrEvents cfg (cfg.pilot_distance : ℚ)
              (wrapInc cfg.nIFFT (wrapInc cfg.nIFFT k)) (dummyPoints n)).map Prod.fst) =
            k :: pilotsOf ((wrEvents cfg (cfg.pilot_distance : ℚ)
              (wrapInc cfg.nIFFT (wrapInc cfg.nIFFT k)) (dummyPoints n)).map Prod.fst) from by
          simp [pilotsOf, List.filterMap_cons]]
        rw [List.map_cons, List.sum_cons, ih]
      · rw [pilotImSum_succ_data cfg isym k n hc, wrEvents_cons_data cfg k _ _ hc,
          List.map_cons]
        show _ = ((pilotsOf (BinEv.data k ::
          (wrEvents cfg (pc - 1) (wrapInc cfg.nIFFT k) (dummyPoints n)).map Prod.fst)).map
            (fun b => |(isym b).im|)).sum
        rw [show pilotsOf (BinEv.data k ::
            (wrEvents cfg (pc - 1) (wrapInc cfg.nIFFT k) (dummyPoints n)).map Prod.fst) =
            pilotsOf ((wrEvents cfg (pc - 1) (wrapInc cfg.nIFFT k)
              (dummyPoints n)).map Prod.fst) from by
          simp [pilotsOf, List.filterMap_cons]]
        rw [ih]

theorem decCnumStep_pilot (cfg : OFDM) (isym : ℕ → ℂ) (st : DecByteSt) (c : ℕ)
    (hc : st.pilot_counter - 1 = 0) :
    decCnumStep cfg isym st c =
      ⟨wrapInc cfg.nIFFT (wrapInc cfg.nIFFT st.k), (cfg.pilot_distance : ℚ),
       st.imPilots + |(isym st.k).im|,
       Function.update
         (Function.update st.bitstream (2 * c) (heaviside (isym (wrapInc cfg.nIFFT st.k)).re 0))
         (2 * c + 1) (heaviside (isym (wrapInc cfg.nIFFT st.k)).im 0)⟩ := by
  unfold decCnumStep
  simp [hc]

theorem decCnumStep_data (cfg : OFDM) (isym : ℕ → ℂ) (st : DecByteSt) (c : ℕ)
    (hc : ¬st.pilot_counter - 1 = 0) :
    decCnumStep cfg isym st c =
      ⟨wrapInc cfg.nIFFT st.k, st.pilot_counter - 1, st.imPilots,
       Function.update
         (Function.update st.bitstream (2 * c) (heaviside (isym st.k).re 0))
         (2 * c + 1) (heaviside (isym st.k).im 0)⟩ := by
  unfold decCnumStep
  simp [hc]

/-- Traversal components of the decoder's inner loop. -/
theorem decInner_trav (cfg : OFDM) (isym : ℕ → ℂ) :
    ∀ (cs : List ℕ) (st : DecByteSt),
      ((cs.foldl (decCnumStep cfg isym) st).k,
       (cs.foldl (decCnumStep cfg isym) st).pilot_counter) =
        travEnd cfg st.pilot_counter st.k cs.length
      ∧ (cs.foldl (decCnumStep cfg isym) st).imPilots =
        st.imPilots + pilotImSum cfg isym st.pilot_counter st.k cs.length := by
  intro cs
  induction cs with
  | nil =>
      intro st
      refine ⟨rfl, ?_⟩
      show st.imPilots = st.imPilots + pilotImSum cfg isym st.pilot_counter st.k 0
      rw [pilotImSum, add_zero]
  | cons c rest ih =>
      intro st
      by_cases hc : st.pilot_counter - 1 = 0
      · rw [List.foldl_cons, decCnumStep_pilot cfg isym st c hc]
        obtain ⟨h1, h2⟩ := ih ⟨wrapInc cfg.nIFFT (wrapInc cfg.nIFFT st.k),
          (cfg.pilot_distance : ℚ), st.imPilots + |(isym st.k).im|,
          Function.update (Function.update st.bitstream (2 * c)
            (heaviside (isym (wrapInc cfg.nIFFT st.k)).re 0)) (2 * c + 1)
            (heaviside (isym (wrapInc cfg.nIFFT st.k)).im 0)⟩
        refine ⟨?_, ?_⟩
        · rw [h1, List.length_cons, travEnd_succ_pilot cfg st.k rest.length hc]
        · rw [h2, List.length_cons, pilotImSum_succ_pilot cfg isym st.k rest.length hc]
          show st.imPilots + |(isym st.k).im| + _ = _
          ring
      · rw [List.foldl_cons, decCnumStep_data cfg isym st c hc]
        obtain ⟨h1, h2⟩ := ih ⟨wrapInc cfg.nIFFT st.k, st.pilot_counter - 1, st.imPilots,
          Function.update (Function.update st.bitstream (2 * c)
            (heaviside (isym st.k).re 0)) (2 * c + 1) (heaviside (isym st.k).im 0)⟩
        refine ⟨?_, ?_⟩
        · rw [h1, List.length_cons, travEnd_succ_data cfg st.k rest.length hc]
        · rw [h2, List.length_cons, pilotImSum_succ_data cfg isym st.k rest.length hc]

theorem byteFromBits_lt (bits : ℕ → ℝ) : byteFromBits bits < 256 := by
  have main : ∀ (l : List ℕ), (∀ b ∈ l, b < 8) → ∀ acc, acc < 256 →
      l.foldl (fun databyte bit =>
        if 0 < bits bit then (1 <<< bit) ||| databyte else databyte) acc < 256 := by
    intro l
    induction l with
    | nil => intro _ acc hacc; exact hacc
    | cons b rest ih =>
        intro hmem acc hacc
        refine ih (fun x hx => hmem x (List.mem_cons_of_mem _ hx)) _ ?_
        show (if 0 < bits b then (1 <<< b) ||| acc else acc) < 256
        by_cases hb : 0 < bits b
        · rw [if_pos hb]
          have hblt : b < 8 := hmem b (List.mem_cons_self _ _)
          have h1 : (1 <<< b) < 256 := by
            rw [Nat.shiftLeft_eq, one_mul]
            calc (2 : ℕ) ^ b < 2 ^ 8 := Nat.pow_lt_pow_right (by omega) hblt
            _ = 256 := by norm_num
          exact Nat.or_lt_two_pow (n := 8) h1 hacc
        · rwa [if_neg hb]
  refine main (List.range 8) (fun b hb => List.mem_range.mp hb) 0 (by omega)

/-- Shape of one outer decode iteration: traversal advances by four
steps, `imPilots` grows by the four-step pilot sum, and one de-scrambled
byte is appended. -/
theorem decByte_shape (cfg : OFDM) (isym : ℕ → ℂ) (st : DecSt) (r : ℕ) :
    ((decByte cfg isym st r).k, (decByte cfg isym st r).pilot_counter) =
      travEnd cfg st.pilot_counter st.k 4
    ∧ (decByte cfg isym st r).imPilots =
      st.imPilots + pilotImSum cfg isym st.pilot_counter st.k 4
    ∧ ∃ b : ℕ, b < 256 ∧ (decByte cfg isym st r).data = st.data ++ [b ^^^ r] := by
  have h := decInner_trav cfg isym (List.range 4)
    ⟨st.k, st.pilot_counter, st.imPilots, fun _ => 0⟩
  unfold decByte
  refine ⟨h.1, h.2, ⟨byteFromBits ((List.range 4).foldl (decCnumStep cfg isym)
    ⟨st.k, st.pilot_counter, st.imPilots, fun _ => 0⟩).bitstream, byteFromBits_lt _, rfl⟩⟩

/-- Shape of the outer decode fold: traversal state, pilot-score
accumulation, decoded length and byte bounds. -/
theorem decodeFold_shape (cfg : OFDM) (isym : ℕ → ℂ) (rnd : ℕ → ℕ) :
    ∀ (xs : List ℕ) (st : DecSt),
      ((xs.foldl (fun st x => decByte cfg isym st (rnd x)) st).k,
       (xs.foldl (fun st x => decByte cfg isym st (rnd x)) st).pilot_counter) =
        travEnd cfg st.pilot_counter st.k (4 * xs.length)
      ∧ (xs.foldl (fun st x => decByte cfg isym st (rnd x)) st).imPilots =
        st.imPilots + pilotImSum cfg isym st.pilot_counter st.k (4 * xs.length)
      ∧ (xs.foldl (fun st x => decByte cfg isym st (rnd x)) st).data.length =
        st.data.length + xs.length
      ∧ ((∀ x, rnd x < 256) → (∀ b ∈ st.data, b < 256) →
          ∀ b ∈ (xs.foldl (fun st x => decByte cfg isym st (rnd x)) st).data, b < 256) := by
  intro xs
  induction xs with
  | nil =>
      intro st
      refine ⟨rfl, ?_, by simp, fun _ hst => hst⟩
      show st.imPilots = st.imPilots + pilotImSum cfg isym st.pilot_counter st.k 0
      rw [pilotImSum, add_zero]
  | cons x xs ih =>
      intro st
      rw [List.foldl_cons]
      obtain ⟨h1, h2, h3, h4⟩ := ih (decByte cfg isym st (rnd x))
      obtain ⟨g1, g2, g3⟩ := decByte_shape cfg isym st (rnd x)
      have gk : (decByte cfg isym st (rnd x)).k = (travEnd cfg st.pilot_counter st.k 4).1 :=
        congrArg Prod.fst g1
      have gpc : (decByte cfg isym st (rnd x)).pilot_counter =
          (travEnd cfg st.pilot_counter st.k 4).2 := congrArg Prod.snd g1
      have hlen4 : 4 * (x :: xs).length = 4 + 4 * xs.length := by
        rw [List.length_cons]
        ring
      obtain ⟨b, hb256, hbdata⟩ := g3
      refine ⟨?_, ?_, ?_, ?_⟩
      · rw [h1, gk, gpc, hlen4, travEnd_add]
      · rw [h2, g2, gk, gpc, hlen4, pilotImSum_add, add_assoc]
      · rw [h3, hbdata, List.length_append, List.length_cons]
        show st.data.length + [b ^^^ rnd x].length + xs.length = _
        rw [List.length_singleton]
        omega
      · intro hrnd hst
        refine h4 hrnd ?_
        intro b' hb'
        rw [hbdata] at hb'
        rcases List.mem_append.mp hb' with h | h
        · exact hst b' h
        · have : b' = b ^^^ rnd x := by simpa using h
          subst this
          exact Nat.xor_lt_two_pow (n := 8) hb256 (hrnd x)

/-- **C10.** Whenever the buffer holds a full framed symbol past the
cursor, `decode` succeeds and returns exactly `nData` decoded entries,
each in `0..255`, a nonnegative pilot score, and a session whose cursor
advanced by exactly `nCyclic + 2·nIFFT` real samples (the framed-symbol
length), over the same signal. -/
theorem decode_shape (cfg : OFDM) (rnd : ℕ → ℕ → ℕ) (st : RxState) (randomSeed : ℕ)
    (hbuf : st.rxindex + cfg.nCyclic + 2 * cfg.nIFFT ≤ st.signal.length)
    (hrnd : ∀ i, rnd randomSeed i < 256) :
    ∃ dat score,
      OFDM.decode cfg rnd st randomSeed = some (dat, score,
        ⟨st.signal, st.rxindex + cfg.nCyclic + 2 * cfg.nIFFT, st.s * (-1) ^ cfg.nIFFT⟩)
      ∧ dat.length = cfg.nData ∧ (∀ b ∈ dat, b < 256) ∧ 0 ≤ score := by
  rw [OFDM.decode, if_neg (by push_neg; intro _; omega)]
  refine ⟨_, _, rfl, ?_, ?_, ?_⟩
  · obtain ⟨_, _, h3, _⟩ := decodeFold_shape cfg _ (rnd randomSeed) (List.range cfg.nData)
      ⟨cfg.kstart, (cfg.pilot_distance : ℚ) / 2, 0, []⟩
    rw [decodeLoop, h3, List.length_nil, List.length_range, Nat.zero_add]
  · obtain ⟨_, _, _, h4⟩ := decodeFold_shape cfg _ (rnd randomSeed) (List.range cfg.nData)
      ⟨cfg.kstart, (cfg.pilot_distance : ℚ) / 2, 0, []⟩
    exact h4 (fun x => hrnd x) (fun b hb => by simp at hb)
  · obtain ⟨_, h2, _, _⟩ := decodeFold_shape cfg _ (rnd randomSeed) (List.range cfg.nData)
      ⟨cfg.kstart, (cfg.pilot_distance : ℚ) / 2, 0, []⟩
    rw [decodeLoop, h2, zero_add]
    exact pilotImSum_nonneg cfg _ _ _ _

/-- Witness for C10 on a one-bin, one-byte configuration and a
three-sample buffer. -/
theorem decode_shape_witness :
    ∃ dat score,
      OFDM.decode (⟨1, 1, 1, 4, 2, 0⟩ : OFDM) (fun _ _ => 0)
        (OFDM.initDecode [(0 : ℝ), 0, 0] 0) 1 = some (dat, score,
          ⟨[(0 : ℝ), 0, 0], 0 + (1 : ℕ) + 2 * 1, (1 : ℝ) * (-1) ^ (1 : ℕ)⟩)
      ∧ dat.length = (⟨1, 1, 1, 4, 2, 0⟩ : OFDM).nData
      ∧ (∀ b ∈ dat, b < 256) ∧ 0 ≤ score :=
  decode_shape (⟨1, 1, 1, 4, 2, 0⟩ : OFDM) (fun _ _ => 0)
    (OFDM.initDecode [(0 : ℝ), 0, 0] 0) 1 (by decide)
    (by intro i; show (0 : ℕ) < 256; decide)

/-! ## Claim C6: the fine stage of the symbol-start search -/

/-- The received spectrum `decode` computes when started at `offset` by
`initDecode` (sign seed `1`): FFT of the Nyquist-demodulated samples
after the cyclic prefix. -/
noncomputable def decodeIsymbol (cfg : OFDM) (signal : List ℝ) (offset : ℕ) : ℕ → ℂ :=
  npfft cfg.nIFFT fun n =>
    (nyquistDemodAux (fun i => signal.getD i 0) 1 (offset + cfg.nCyclic) cfg.nIFFT).getD n 0

/-- The pilot score at a given offset: the sum over the pilot bins of the
absolute imaginary parts of the received spectrum. -/
noncomputable def pilotScoreAt (cfg : OFDM) (signal : List ℝ) (offset : ℕ) : ℝ :=
  ((pilotBinsL cfg).map fun b => |(decodeIsymbol cfg signal offset b).im|).sum

/-- The decoder's accumulated `imPilots` is exactly the pilot-bin score
of its received spectrum. -/
theorem decodeLoop_imPilots (cfg : OFDM) (rnd : ℕ → ℕ) (isym : ℕ → ℂ) :
    (decodeLoop cfg rnd isym).imPilots =
      ((pilotBinsL cfg).map fun b => |(isym b).im|).sum := by
  obtain ⟨_, h2, _, _⟩ := decodeFold_shape cfg isym rnd (List.range cfg.nData)
    ⟨cfg.kstart, (cfg.pilot_distance : ℚ) / 2, 0, []⟩
  rw [decodeLoop, h2, zero_add, List.length_range, pilotImSum_eq_binsum,
    wrEvents_half_eq]
  rfl

/-- The pilot-score component of a successful `decode` started by
`initDecode` at `offset`. -/
theorem decode_score (cfg : OFDM) (rnd : ℕ → ℕ → ℕ) (signal : List ℝ)
    (offset randomSeed : ℕ)
    (hbuf : offset + cfg.nCyclic + 2 * cfg.nIFFT ≤ signal.length) :
    (OFDM.decode cfg rnd (OFDM.initDecode signal offset) randomSeed).map
      (fun res => res.2.1) = some (pilotScoreAt cfg signal offset) := by
  rw [OFDM.decode, if_neg (by push_neg; intro _; exact hbuf)]
  show some _ = _
  rw [Option.some.injEq]
  exact decodeLoop_imPilots cfg (rnd randomSeed) _

theorem mapM_option_eq_some {α β : Type} (g : α → β) :
    ∀ (l : List α) (f : α → Option β), (∀ a ∈ l, f a = some (g a)) →
      l.mapM f = some (l.map g) := by
  intro l
  induction l with
  | nil => intro f _; rfl
  | cons a l ih =>
      intro f h
      rw [List.mapM_cons, h a (List.mem_cons_self _ _),
        ih f (fun x hx => h x (List.mem_cons_of_mem _ hx))]
      rfl

/-- **C6.** For a coarse offset `o1 ≥ w` (default `w = 25`) and a buffer
long enough for the window, the fine stage scores every offset
`i ∈ [o1-w, o1+w)` with the legacy pilot score — the sum over pilot bins
of the absolute imaginary parts of the received spectrum at `i` — and
returns `o2 = o1 + argmin(scores) - w`; and whenever the coarse stage
yields `o1`, `findSymbolStartIndex` returns exactly that refined offset
together with the correlation and score arrays. -/
theorem fine_stage_spec (cfg : OFDM) (rnd : ℕ → ℕ → ℕ) (signal : List ℝ) (w o1 : ℕ)
    (hw : 0 < w) (ho1 : w ≤ o1)
    (hbuf : o1 + w - 1 + cfg.nCyclic + 2 * cfg.nIFFT ≤ signal.length) :
    (∃ scores,
      fineStage cfg rnd signal o1 w = some (scores, o1 - w + npArgmin scores)
      ∧ scores = (List.range (2 * w)).map (fun j => pilotScoreAt cfg signal (o1 - w + j))
      ∧ ((o1 - w + npArgmin scores : ℕ) : ℤ) = (o1 : ℤ) + (npArgmin scores : ℤ) - (w : ℤ))
    ∧ ∀ src, (findPeaksDistance (coarseCrosscorr cfg signal (srcVal cfg src))
          (cfg.nIFFT * 2)).head? = some o1 →
        OFDM.findSymbolStartIndex cfg rnd signal src w =
          (fineStage cfg rnd signal o1 w).map fun pr =>
            (coarseCrosscorr cfg signal (srcVal cfg src), pr.1, pr.2) := by
  have hscores : fineScores cfg rnd signal o1 w =
      some ((List.range (2 * w)).map fun j => pilotScoreAt cfg signal (o1 - w + j)) := by
    refine mapM_option_eq_some _ _ _ fun j hj => ?_
    have hjlt : j < 2 * w := List.mem_range.mp hj
    exact decode_score cfg rnd signal (o1 - w + j) 1 (by omega)
  constructor
  · refine ⟨(List.range (2 * w)).map fun j => pilotScoreAt cfg signal (o1 - w + j),
      ?_, rfl, by omega⟩
    rw [fineStage, if_neg (by omega), hscores]
  · intro src hsrc
    rw [OFDM.findSymbolStartIndex]
    show (match (findPeaksDistance (coarseCrosscorr cfg signal (srcVal cfg src))
        (cfg.nIFFT * 2)).head? with
      | none => none
      | some o1 => (fineStage cfg rnd signal o1 w).map fun pr : List ℝ × ℕ =>
          (coarseCrosscorr cfg signal (srcVal cfg src), pr.1, pr.2)) = _
    rw [hsrc]

/-- Witness for C6 on a one-bin configuration with window `w = 1` around
`o1 = 1`. -/
theorem fine_stage_spec_witness :
    (∃ scores,
      fineStage (⟨1, 1, 1, 4, 2, 0⟩ : OFDM) (fun _ _ => 0) [(0 : ℝ), 0, 0, 0, 0] 1 1
          = some (scores, 1 - 1 + npArgmin scores)
      ∧ scores = (List.range (2 * 1)).map
          (fun j => pilotScoreAt (⟨1, 1, 1, 4, 2, 0⟩ : OFDM) [(0 : ℝ), 0, 0, 0, 0] (1 - 1 + j))
      ∧ ((1 - 1 + npArgmin scores : ℕ) : ℤ) = (1 : ℤ) + (npArgmin scores : ℤ) - (1 : ℤ))
    ∧ ∀ src, (findPeaksDistance (coarseCrosscorr (⟨1, 1, 1, 4, 2, 0⟩ : OFDM)
          [(0 : ℝ), 0, 0, 0, 0] (srcVal (⟨1, 1, 1, 4, 2, 0⟩ : OFDM) src)) ((1 : ℕ) * 2)).head?
            = some 1 →
        OFDM.findSymbolStartIndex (⟨1, 1, 1, 4, 2, 0⟩ : OFDM) (fun _ _ => 0)
            [(0 : ℝ), 0, 0, 0, 0] src 1 =
          (fineStage (⟨1, 1, 1, 4, 2, 0⟩ : OFDM) (fun _ _ => 0) [(0 : ℝ), 0, 0, 0, 0] 1 1).map
            fun pr => (coarseCrosscorr (⟨1, 1, 1, 4, 2, 0⟩ : OFDM) [(0 : ℝ), 0, 0, 0, 0]
              (srcVal (⟨1, 1, 1, 4, 2, 0⟩ : OFDM) src), pr.1, pr.2) :=
  fine_stage_spec (⟨1, 1, 1, 4, 2, 0⟩ : OFDM) (fun _ _ => 0) [(0 : ℝ), 0, 0, 0, 0] 1 1
    (by decide) (by decide) (by decide)

/-! ## Claim C1: byte recovery through the demapper -/

/-- The bit writes of the decoder's inner loop, as a fold: for each
`(cnum, point)` pair, entries `2·cnum` and `2·cnum + 1` of the bitstream
array receive the heavisides of the point's coordinates. -/
noncomputable def applyBitWrites (bits : ℕ → ℝ) (l : List (ℕ × (ℚ × ℚ))) : ℕ → ℝ :=
  l.foldl (fun f cp =>
    Function.update (Function.update f (2 * cp.1) (heaviside ((cp.2.1 : ℝ)) 0))
      (2 * cp.1 + 1) (heaviside ((cp.2.2 : ℝ)) 0)) bits

theorem bitval_testBit (b i : ℕ) : bitval b i = if b.testBit i then 1 else -1 := by
  unfold bitval
  have h : (1 <<< i) &&& b = 2 ^ i * (b.testBit i).toNat := by
    rw [Nat.shiftLeft_eq, one_mul, Nat.two_pow_and]
  rw [h]
  by_cases hb : b.testBit i
  · rw [if_pos hb,
      if_pos (by rw [hb, Bool.toNat_true, mul_one]; exact Nat.pos_pow_of_pos i (by omega))]
  · rw [if_neg hb,
      if_neg (by rw [Bool.eq_false_iff.mpr hb, Bool.toNat_false, mul_zero]; omega)]

theorem heaviside_bitval (b i : ℕ) :
    heaviside ((bitval b i : ℚ) : ℝ) 0 = if b.testBit i then 1 else 0 := by
  rw [bitval_testBit]
  by_cases hb : b.testBit i
  · rw [if_pos hb, if_pos hb, show (((1 : ℚ) : ℝ)) = 1 by norm_num]
    unfold heaviside
    rw [if_neg (by norm_num), if_neg (by norm_num)]
  · rw [if_neg hb, if_neg hb, show (((-1 : ℚ) : ℝ)) = -1 by push_cast; ring]
    unfold heaviside
    rw [if_pos (by norm_num)]

/-- Byte reassembly applied to its own bit decomposition. -/
def reassemble (sb : ℕ) : ℕ :=
  (List.range 8).foldl
    (fun databyte bit => if sb.testBit bit then (1 <<< bit) ||| databyte else databyte) 0

set_option maxRecDepth 10000 in
theorem reassemble_eq_self (sb : ℕ) (hsb : sb < 256) : reassemble sb = sb := by
  have h : ∀ x : Fin 256, reassemble x.val = x.val := by decide
  exact h ⟨sb, hsb⟩

theorem byteFromBits_of_testBits (sb : ℕ) (bits : ℕ → ℝ)
    (hbits : ∀ i, i < 8 → bits i = if sb.testBit i then 1 else 0) :
    byteFromBits bits = reassemble sb := by
  unfold byteFromBits reassemble
  refine List.foldl_ext _ _ 0 fun acc bit hbit => ?_
  have hb8 : bit < 8 := List.mem_range.mp hbit
  by_cases hb : sb.testBit bit
  · have hbb : bits bit = 1 := by rw [hbits bit hb8, if_pos hb]
    rw [hbb, if_pos (by norm_num : (0 : ℝ) < 1), if_pos hb]
  · have hbb : bits bit = 0 := by rw [hbits bit hb8, if_neg hb]
    rw [hbb, if_neg (by norm_num : ¬(0 : ℝ) < 0), if_neg hb]

/-- The decoder's inner loop under correct reads: traversal advances,
`imPilots` is unchanged (pilot reads are exactly `(A, 0)`), and the
bitstream array collects the heavisides of the scheduled points. -/
theorem decInner_correct (cfg : OFDM) (isym : ℕ → ℂ) :
    ∀ (ps : List (ℚ × ℚ)) (cs : List ℕ) (st : DecByteSt), cs.length = ps.length →
      (∀ ev ∈ wrEvents cfg st.pilot_counter st.k ps, isym ev.1.bin = toC ev.2) →
      cs.foldl (decCnumStep cfg isym) st =
        ⟨(travEnd cfg st.pilot_counter st.k ps.length).1,
         (travEnd cfg st.pilot_counter st.k ps.length).2,
         st.imPilots, applyBitWrites st.bitstream (cs.zip ps)⟩ := by
  intro ps
  induction ps with
  | nil =>
      intro cs st hlen _
      rw [List.length_eq_zero.mp hlen]
      rfl
  | cons p rest ih =>
      intro cs st hlen H
      cases cs with
      | nil => simp at hlen
      | cons c cs =>
          have hlen' : cs.length = rest.length := by simpa using hlen
          by_cases hc : st.pilot_counter - 1 = 0
          · have hpil : isym st.k = toC (cfg.pilot_amplitude, 0) := by
              refine H (BinEv.pilot st.k, (cfg.pilot_amplitude, 0)) ?_
              rw [wrEvents_cons_pilot cfg st.k p rest hc]
              exact List.mem_cons_self _ _
            have hdat : isym (wrapInc cfg.nIFFT st.k) = toC p := by
              refine H (BinEv.data (wrapInc cfg.nIFFT st.k), p) ?_
              rw [wrEvents_cons_pilot cfg st.k p rest hc]
              exact List.mem_cons_of_mem _ (List.mem_cons_self _ _)
            have him : |(isym st.k).im| = 0 := by
              rw [hpil]
              show |(((0 : ℚ) : ℝ))| = 0
              norm_num
            rw [List.foldl_cons, decCnumStep_pilot cfg isym st c hc]
            rw [ih cs ⟨wrapInc cfg.nIFFT (wrapInc cfg.nIFFT st.k), (cfg.pilot_distance : ℚ),
              st.imPilots + |(isym st.k).im|,
              Function.update (Function.update st.bitstream (2 * c)
                (heaviside (isym (wrapInc cfg.nIFFT st.k)).re 0)) (2 * c + 1)
                (heaviside (isym (wrapInc cfg.nIFFT st.k)).im 0)⟩ hlen' ?_]
            · rw [him, add_zero, List.length_cons,
                travEnd_succ_pilot cfg st.k rest.length hc]
              show DecByteSt.mk _ _ _ _ = DecByteSt.mk _ _ _ _
              rw [hdat]
              rfl
            · intro ev hev
              refine H ev ?_
              rw [wrEvents_cons_pilot cfg st.k p rest hc]
              exact List.mem_cons_of_mem _ (List.mem_cons_of_mem _ hev)
          · have hdat : isym st.k = toC p := by
              refine H (BinEv.data st.k, p) ?_
              rw [wrEvents_cons_data cfg st.k p rest hc]
              exact List.mem_cons_self _ _
            rw [List.foldl_cons, decCnumStep_data cfg isym st c hc]
            rw [ih cs ⟨wrapInc cfg.nIFFT st.k, st.pilot_counter - 1, st.imPilots,
              Function.update (Function.update st.bitstream (2 * c)
                (heaviside (isym st.k).re 0)) (2 * c + 1)
                (heaviside (isym st.k).im 0)⟩ hlen' ?_]
            · rw [List.length_cons, travEnd_succ_data cfg st.k rest.length hc]
              show DecByteSt.mk _ _ _ _ = DecByteSt.mk _ _ _ _
              rw [hdat]
              rfl
            · intro ev hev
              refine H ev ?_
              rw [wrEvents_cons_data cfg st.k p rest hc]
              exact List.mem_cons_of_mem _ hev

/-- One outer decode iteration under correct reads recovers the
scrambled byte and de-scrambles it with the stream draw. -/
theorem decByte_correct (cfg : OFDM) (isym : ℕ → ℂ) (st : DecSt) (sb r : ℕ)
    (hsb : sb < 256)
    (H : ∀ ev ∈ wrEvents cfg st.pilot_counter st.k (pointsOfByte sb),
      isym ev.1.bin = toC ev.2) :
    decByte cfg isym st r =
      ⟨(travEnd cfg st.pilot_counter st.k 4).1, (travEnd cfg st.pilot_counter st.k 4).2,
       st.imPilots, st.data ++ [sb ^^^ r]⟩ := by
  unfold decByte
  rw [decInner_correct cfg isym (pointsOfByte sb) (List.range 4)
    ⟨st.k, st.pilot_counter, st.imPilots, fun _ => 0⟩ rfl H]
  show DecSt.mk _ _ _ _ = DecSt.mk _ _ _ _
  have hbits : ∀ i, i < 8 →
      applyBitWrites (fun _ => 0) ((List.range 4).zip (pointsOfByte sb)) i =
        if sb.testBit i then 1 else 0 := by
    intro i hi
    rw [show (List.range 4).zip (pointsOfByte sb) =
        [(0, (bitval sb 0, bitval sb 1)), (1, (bitval sb 2, bitval sb 3)),
         (2, (bitval sb 4, bitval sb 5)), (3, (bitval sb 6, bitval sb 7))] from rfl]
    interval_cases i <;>
      simp [applyBitWrites, Function.update, heaviside_bitval]
  rw [byteFromBits_of_testBits sb _ hbits, reassemble_eq_self sb hsb]
  rfl

theorem wrEvents_append (cfg : OFDM) :
    ∀ (ps qs : List (ℚ × ℚ)) (pc : ℚ) (k : ℕ),
      wrEvents cfg pc k (ps ++ qs) =
        wrEvents cfg pc k ps ++
          wrEvents cfg (travEnd cfg pc k ps.length).2 (travEnd cfg pc k ps.length).1 qs := by
  intro ps
  induction ps with
  | nil => intro qs pc k; rfl
  | cons p rest ih =>
      intro qs pc k
      by_cases hc : pc - 1 = 0
      · rw [List.cons_append, wrEvents_cons_pilot cfg k p (rest ++ qs) hc,
          wrEvents_cons_pilot cfg k p rest hc, ih, List.length_cons,
          travEnd_succ_pilot cfg k rest.length hc, List.cons_append, List.cons_append]
      · rw [List.cons_append, wrEvents_cons_data cfg k p (rest ++ qs) hc,
          wrEvents_cons_data cfg k p rest hc, ih, List.length_cons,
          travEnd_succ_data cfg k rest.length hc, List.cons_append]

/-- The outer decode fold under correct reads recovers all de-scrambled
bytes in order. -/
theorem decodeFold_correct (cfg : OFDM) (isym : ℕ → ℂ) (rnd sb : ℕ → ℕ) :
    ∀ (xs : List ℕ) (st : DecSt),
      (∀ x ∈ xs, sb x < 256) →
      (∀ ev ∈ wrEvents cfg st.pilot_counter st.k
          ((xs.map fun x => pointsOfByte (sb x)).flatten), isym ev.1.bin = toC ev.2) →
      xs.foldl (fun st x => decByte cfg isym st (rnd x)) st =
        ⟨(travEnd cfg st.pilot_counter st.k (4 * xs.length)).1,
         (travEnd cfg st.pilot_counter st.k (4 * xs.length)).2,
         st.imPilots, st.data ++ xs.map (fun x => sb x ^^^ rnd x)⟩ := by
  intro xs
  induction xs with
  | nil =>
      intro st _ _
      cases st
      show DecSt.mk _ _ _ _ = DecSt.mk _ _ _ _
      rw [List.map_nil, List.append_nil]
      rfl
  | cons x xs ih =>
      intro st hsb H
      rw [List.foldl_cons]
      have hHdecomp : wrEvents cfg st.pilot_counter st.k
          (((x :: xs).map fun y => pointsOfByte (sb y)).flatten) =
          wrEvents cfg st.pilot_counter st.k (pointsOfByte (sb x)) ++
            wrEvents cfg (travEnd cfg st.pilot_counter st.k 4).2
              (travEnd cfg st.pilot_counter st.k 4).1
              ((xs.map fun y => pointsOfByte (sb y)).flatten) := by
        rw [List.map_cons, List.flatten_cons, wrEvents_append]
        rfl
      rw [hHdecomp] at H
      rw [decByte_correct cfg isym st (sb x) (rnd x) (hsb x (List.mem_cons_self _ _))
        (fun ev hev => H ev (List.mem_append_left _ hev))]
      rw [ih ⟨(travEnd cfg st.pilot_counter st.k 4).1,
        (travEnd cfg st.pilot_counter st.k 4).2, st.imPilots, st.data ++ [sb x ^^^ rnd x]⟩
        (fun y hy => hsb y (List.mem_cons_of_mem _ hy))
        (fun ev hev => H ev (List.mem_append_right _ hev))]
      show DecSt.mk _ _ _ _ = DecSt.mk _ _ _ _
      have h4 : 4 * (x :: xs).length = 4 + 4 * xs.length := by
        rw [List.length_cons]
        ring
      rw [h4, travEnd_add, List.map_cons, List.append_assoc, List.singleton_append]

theorem npfft_congr (N : ℕ) (f g : ℕ → ℂ) (m : ℕ) (h : ∀ n, n < N → f n = g n) :
    npfft N f m = npfft N g m := by
  unfold npfft
  exact Finset.sum_congr rfl fun k hk => by rw [h k (Finset.mem_range.mp hk)]

theorem map_getD_range (l : List ℕ) :
    (List.range l.length).map (fun i => l.getD i 0) = l := by
  induction l with
  | nil => rfl
  | cons a t ih =>
      rw [List.length_cons, List.range_succ_eq_map, List.map_cons, List.map_map]
      show a :: _ = a :: t
      rw [show ((fun i => (a :: t).getD i 0) ∘ Nat.succ) = (fun i => t.getD i 0) from rfl, ih]

/-- All scheduled bins lie below `nIFFT`. -/
theorem wrEvents_bins_lt (cfg : OFDM) (hN : 0 < cfg.nIFFT) (ps : List (ℚ × ℚ)) (pc : ℚ)
    (k : ℕ) (hk : k < cfg.nIFFT) :
    ∀ b ∈ evBins (wrEvents cfg pc k ps), b < cfg.nIFFT := by
  intro b hb
  rw [wrEvents_bins cfg hN ps pc k hk] at hb
  rcases List.mem_map.mp hb with ⟨j, _, hj⟩
  rw [← hj]
  exact Nat.mod_lt _ hN

/-- Every scheduled write value is the final spectrum value at its bin
(no clobbering when the schedule fits in the `N` bins). -/
theorem encode_write_values (cfg : OFDM) (rnd : ℕ → ℕ) (data : List ℕ)
    (hN : 0 < cfg.nIFFT) (hk : cfg.kstart < cfg.nIFFT) (hW : numWrites cfg ≤ cfg.nIFFT) :
    ∀ e v, (e, v) ∈ wrEvents cfg ((cfg.pilot_distance : ℚ) / 2) cfg.kstart
        (allPoints cfg rnd data) →
      (encodeSpectrum cfg rnd data).spectrum e.bin = v := by
  have hfst : (wrEvents cfg ((cfg.pilot_distance : ℚ) / 2) cfg.kstart
      (allPoints cfg rnd data)).map Prod.fst = symbolEvents cfg := by
    rw [symbolEvents, ← wrEvents_half_eq]
    exact wrEvents_map_fst_congr cfg _ _ _ _
      (by rw [allPoints_length, dummyPoints, List.length_replicate])
  have hlen : (wrEvents cfg ((cfg.pilot_distance : ℚ) / 2) cfg.kstart
      (allPoints cfg rnd data)).length = numWrites cfg := by
    rw [numWrites, ← hfst, List.length_map]
  have hnd : (evBins (wrEvents cfg ((cfg.pilot_distance : ℚ) / 2) cfg.kstart
      (allPoints cfg rnd data))).Nodup :=
    wrEvents_bins_nodup cfg hN _ _ _ hk (by rw [hlen]; exact hW)
  intro e v hmem
  rw [encodeSpectrum_eq]
  exact applyWrites_mem _ _ hnd e v hmem

/-- The spectrum the decoder sees, when decoding an `encode` output at
the exact transmit offset, is exactly the transmitted spectrum `X` (FFT
of the demodulated, prefix-stripped samples = FFT of IFFT). -/
theorem decodeIsymbol_encode (cfg : OFDM) (X : ℕ → ℂ) (signal : List ℝ)
    (hN : 0 < cfg.nIFFT) (hC0 : 0 < cfg.nCyclic) (hC2 : cfg.nCyclic ≤ 2 * cfg.nIFFT)
    (m : ℕ) (hm : m < cfg.nIFFT) :
    decodeIsymbol cfg
      (signal ++
        negSlice (nyquistMod (List.ofFn fun n : Fin cfg.nIFFT =>
          npifft cfg.nIFFT X n.val)) cfg.nCyclic ++
        nyquistMod (List.ofFn fun n : Fin cfg.nIFFT => npifft cfg.nIFFT X n.val))
      signal.length m = X m := by
  haveI : NeZero cfg.nIFFT := ⟨by omega⟩
  have hcslen : (List.ofFn fun n : Fin cfg.nIFFT => npifft cfg.nIFFT X n.val).length =
      cfg.nIFFT := List.length_ofFn _
  have htxlen : (nyquistMod (List.ofFn fun n : Fin cfg.nIFFT =>
      npifft cfg.nIFFT X n.val)).length = 2 * cfg.nIFFT := by
    rw [nyquistMod_length, hcslen]
  have hpre : (negSlice (nyquistMod (List.ofFn fun n : Fin cfg.nIFFT =>
      npifft cfg.nIFFT X n.val)) cfg.nCyclic).length = cfg.nCyclic :=
    negSlice_length _ _ hC0 (by omega)
  have hsig : ∀ i, i < 2 * (List.ofFn fun n : Fin cfg.nIFFT =>
      npifft cfg.nIFFT X n.val).length →
      (signal ++
        negSlice (nyquistMod (List.ofFn fun n : Fin cfg.nIFFT =>
          npifft cfg.nIFFT X n.val)) cfg.nCyclic ++
        nyquistMod (List.ofFn fun n : Fin cfg.nIFFT => npifft cfg.nIFFT X n.val)).getD
          (signal.length + cfg.nCyclic + i) 0 =
        (nyquistModAux 1 (List.ofFn fun n : Fin cfg.nIFFT =>
          npifft cfg.nIFFT X n.val)).getD i 0 := by
    intro i _
    rw [List.getD_append_right _ _ _ _
      (by rw [List.length_append, hpre]; omega)]
    have hidx : signal.length + cfg.nCyclic + i -
        (signal ++ negSlice (nyquistMod (List.ofFn fun n : Fin cfg.nIFFT =>
          npifft cfg.nIFFT X n.val)) cfg.nCyclic).length = i := by
      rw [List.length_append, hpre]
      omega
    rw [hidx]
    rfl
  have hrx : nyquistDemodAux
      (fun i => (signal ++
        negSlice (nyquistMod (List.ofFn fun n : Fin cfg.nIFFT =>
          npifft cfg.nIFFT X n.val)) cfg.nCyclic ++
        nyquistMod (List.ofFn fun n : Fin cfg.nIFFT => npifft cfg.nIFFT X n.val)).getD i 0)
      1 (signal.length + cfg.nCyclic) cfg.nIFFT =
      (List.ofFn fun n : Fin cfg.nIFFT => npifft cfg.nIFFT X n.val) := by
    have h := nyquistDemodAux_modAux
      (List.ofFn fun n : Fin cfg.nIFFT => npifft cfg.nIFFT X n.val) 1
      (signal.length + cfg.nCyclic)
      (fun i => (signal ++
        negSlice (nyquistMod (List.ofFn fun n : Fin cfg.nIFFT =>
          npifft cfg.nIFFT X n.val)) cfg.nCyclic ++
        nyquistMod (List.ofFn fun n : Fin cfg.nIFFT => npifft cfg.nIFFT X n.val)).getD i 0)
      (Or.inl rfl) hsig
    rw [hcslen] at h
    exact h
  rw [decodeIsymbol, hrx]
  have hcongr : npfft cfg.nIFFT
      (fun n => (List.ofFn fun j : Fin cfg.nIFFT => npifft cfg.nIFFT X j.val).getD n 0) m =
      npfft cfg.nIFFT (fun n => npifft cfg.nIFFT X n) m := by
    refine npfft_congr _ _ _ _ fun n hn => ?_
    rw [List.getD_eq_getElem _ _ (by rw [hcslen]; exact hn), List.getElem_ofFn]
  rw [hcongr, npfft_npifft X m hm]

/-- Decoding any buffer that carries a correctly-readable encoded symbol
at `off` returns the payload: the demapper, fed a spectrum that agrees
with every scheduled write, reproduces each de-scrambled byte. -/
theorem decode_of_correct_out (cfg : OFDM) (rnd : ℕ → ℕ → ℕ) (data : List ℕ)
    (randomSeed : ℕ) (out : List ℝ) (off : ℕ)
    (hbuf : off + cfg.nCyclic + 2 * cfg.nIFFT ≤ out.length)
    (hisym : ∀ e v, (e, v) ∈ wrEvents cfg ((cfg.pilot_distance : ℚ) / 2) cfg.kstart
        (allPoints cfg (rnd randomSeed) data) →
      decodeIsymbol cfg out off e.bin = toC v)
    (hlen : data.length = cfg.nData)
    (hdata : ∀ b ∈ data, b < 256)
    (hrnd : ∀ i, rnd randomSeed i < 256) :
    (OFDM.decode cfg rnd (OFDM.initDecode out off) randomSeed).map
      (fun res => res.1) = some data := by
  rw [OFDM.decode, if_neg (by push_neg; intro _; exact hbuf)]
  show some _ = _
  rw [Option.some.injEq]
  show (decodeLoop cfg (rnd randomSeed) (decodeIsymbol cfg out off)).data = data
  rw [decodeLoop]
  rw [decodeFold_correct cfg (decodeIsymbol cfg out off) (rnd randomSeed)
    (fun x => data.getD x 0 ^^^ rnd randomSeed x) (List.range cfg.nData)
    ⟨cfg.kstart, (cfg.pilot_distance : ℚ) / 2, 0, []⟩
    (by
      intro x hx
      have hxlt : x < cfg.nData := List.mem_range.mp hx
      have hget : data.getD x 0 < 256 := by
        rw [List.getD_eq_getElem data 0 (by omega)]
        exact hdata _ (List.getElem_mem _)
      exact Nat.xor_lt_two_pow (n := 8) hget (hrnd x))
    (fun ev hev => hisym ev.1 ev.2 hev)]
  show [] ++ (List.range cfg.nData).map
    (fun x => (data.getD x 0 ^^^ rnd randomSeed x) ^^^ rnd randomSeed x) = data
  rw [List.nil_append,
    show ((List.range cfg.nData).map
        (fun x => (data.getD x 0 ^^^ rnd randomSeed x) ^^^ rnd randomSeed x)) =
      ((List.range cfg.nData).map fun x => data.getD x 0) from
      List.map_congr_left fun x _ => Nat.xor_cancel_right _ _,
    ← hlen, map_getD_range]

/-- **C1.** Round trip without a channel: for every supported
configuration (positive FFT length, in-range `k_start`, a write schedule
that fits in the `N` bins, a positive prefix no longer than the
modulated symbol), every payload of exactly `nData` bytes below 256 and
every `randint(0,255)` stream, encoding and then decoding at the exact
transmit start offset with the same seed returns the payload exactly. -/
theorem roundtrip_exact (cfg : OFDM) (rnd : ℕ → ℕ → ℕ) (signal : List ℝ)
    (data : List ℕ) (randomSeed : ℕ)
    (hN : 0 < cfg.nIFFT) (hk : cfg.kstart < cfg.nIFFT)
    (hW : numWrites cfg ≤ cfg.nIFFT)
    (hC0 : 0 < cfg.nCyclic) (hC2 : cfg.nCyclic ≤ 2 * cfg.nIFFT)
    (hlen : data.length = cfg.nData)
    (hdata : ∀ b ∈ data, b < 256)
    (hrnd : ∀ i, rnd randomSeed i < 256) :
    ((OFDM.encode cfg rnd signal data randomSeed).bind fun out =>
      OFDM.decode cfg rnd (OFDM.initDecode out signal.length) randomSeed).map
        (fun res => res.1) = some data := by
  have henc : OFDM.encode cfg rnd signal data randomSeed =
      some (signal ++
        negSlice (nyquistMod (List.ofFn fun n : Fin cfg.nIFFT =>
          npifft cfg.nIFFT (fun j => toC ((encodeSpectrum cfg (rnd randomSeed)
            data).spectrum j)) n.val)) cfg.nCyclic ++
        nyquistMod (List.ofFn fun n : Fin cfg.nIFFT =>
          npifft cfg.nIFFT (fun j => toC ((encodeSpectrum cfg (rnd randomSeed)
            data).spectrum j)) n.val)) := by
    rw [OFDM.encode, if_neg (by omega)]
  have htxlen : (nyquistMod (List.ofFn fun n : Fin cfg.nIFFT =>
      npifft cfg.nIFFT (fun j => toC ((encodeSpectrum cfg (rnd randomSeed)
        data).spectrum j)) n.val)).length = 2 * cfg.nIFFT := by
    rw [nyquistMod_length, List.length_ofFn]
  have hpre : (negSlice (nyquistMod (List.ofFn fun n : Fin cfg.nIFFT =>
      npifft cfg.nIFFT (fun j => toC ((encodeSpectrum cfg (rnd randomSeed)
        data).spectrum j)) n.val)) cfg.nCyclic).length = cfg.nCyclic :=
    negSlice_length _ _ hC0 (by omega)
  have houtlen : (signal ++
      negSlice (nyquistMod (List.ofFn fun n : Fin cfg.nIFFT =>
        npifft cfg.nIFFT (fun j => toC ((encodeSpectrum cfg (rnd randomSeed)
          data).spectrum j)) n.val)) cfg.nCyclic ++
      nyquistMod (List.ofFn fun n : Fin cfg.nIFFT =>
        npifft cfg.nIFFT (fun j => toC ((encodeSpectrum cfg (rnd randomSeed)
          data).spectrum j)) n.val)).length =
      signal.length + cfg.nCyclic + 2 * cfg.nIFFT := by
    rw [List.length_append, List.length_append, htxlen, hpre]
  rw [henc, Option.some_bind]
  refine decode_of_correct_out cfg rnd data randomSeed _ signal.length
    (houtlen.ge) ?_ hlen hdata hrnd
  intro e v hmem
  have hblt : e.bin < cfg.nIFFT := by
    refine wrEvents_bins_lt cfg hN (allPoints cfg (rnd randomSeed) data)
      ((cfg.pilot_distance : ℚ) / 2) cfg.kstart hk e.bin ?_
    exact List.mem_map.mpr ⟨(e, v), hmem, rfl⟩
  rw [decodeIsymbol_encode cfg
    (fun j => toC ((encodeSpectrum cfg (rnd randomSeed) data).spectrum j))
    signal hN hC0 hC2 e.bin hblt,
    encode_write_values cfg (rnd randomSeed) data hN hk hW e v hmem]

/-- Witness for C1: an 8-bin, one-byte configuration round-trips the
payload `[37]` through encode and decode. -/
theorem roundtrip_exact_witness :
    ((OFDM.encode (⟨8, 1, 4, 16, 2, 2⟩ : OFDM) (fun _ _ => 9) [] [37] 1).bind fun out =>
      OFDM.decode (⟨8, 1, 4, 16, 2, 2⟩ : OFDM) (fun _ _ => 9)
        (OFDM.initDecode out ([] : List ℝ).length) 1).map (fun res => res.1) = some [37] :=
  roundtrip_exact (⟨8, 1, 4, 16, 2, 2⟩ : OFDM) (fun _ _ => 9) [] [37] 1
    (by decide) (by decide) (by decide) (by decide) (by decide) (by decide) (by decide)
    (by intro i; show (9 : ℕ) < 256; decide)

/-! ## C9: the length precondition of `encode` -/

theorem getD_take_eq (data : List ℕ) (n x : ℕ) (hx : x < n) (h : n ≤ data.length) :
    (data.take n).getD x 0 = data.getD x 0 := by
  have h1 : x < (data.take n).length := by rw [List.length_take]; omega
  have h2 : x < data.length := by omega
  rw [List.getD_eq_getElem _ _ h1, List.getD_eq_getElem _ _ h2, List.getElem_take]

theorem encodeSpectrum_take (cfg : OFDM) (rnd : ℕ → ℕ) (data : List ℕ)
    (h : cfg.nData ≤ data.length) :
    encodeSpectrum cfg rnd (data.take cfg.nData) = encodeSpectrum cfg rnd data := by
  rw [encodeSpectrum, encodeSpectrum]
  refine List.foldl_ext _ _ _ fun st x hx => ?_
  rw [getD_take_eq data cfg.nData x (List.mem_range.mp hx) h]

/-- **C9.** Corrected: `encode` (`ofdm_codec.py` lines 64-163) performs no
length check.  `data[x]` is only read for `x < nData` (line 89), so the call
raises `IndexError` exactly when `data` holds fewer than `nData` bytes; a
longer array is accepted and the bytes beyond index `nData - 1` are
ignored — the claimed failure on every length other than `nData` does not
hold. -/
theorem encode_none_iff (cfg : OFDM) (rnd : ℕ → ℕ → ℕ) (signal : List ℝ)
    (data : List ℕ) (randomSeed : ℕ) :
    (OFDM.encode cfg rnd signal data randomSeed = none ↔ data.length < cfg.nData)
    ∧ (cfg.nData ≤ data.length →
        OFDM.encode cfg rnd signal (data.take cfg.nData) randomSeed =
          OFDM.encode cfg rnd signal data randomSeed) := by
  constructor
  · rw [OFDM.encode]
    by_cases h : data.length < cfg.nData
    · simp [h]
    · simp [h]
  · intro h
    rw [OFDM.encode, OFDM.encode,
      if_neg (show ¬data.length < cfg.nData by omega),
      if_neg (show ¬(data.take cfg.nData).length < cfg.nData by
        rw [List.length_take]; omega)]
    rw [encodeSpectrum_take cfg (rnd randomSeed) data h]

/-- Counterexample to C9 as stated: with `nData = 1`, a two-byte payload
(`len(data) ≠ nData`) does not make `encode` fail. -/
theorem encode_overlong_counterexample :
    (OFDM.encode (⟨8, 1, 4, 16, 2, 2⟩ : OFDM) (fun _ _ => 0) [] [5, 6] 1).isSome = true
    ∧ ([5, 6] : List ℕ).length ≠ (⟨8, 1, 4, 16, 2, 2⟩ : OFDM).nData := by
  constructor
  · rw [OFDM.encode, if_neg (by decide)]
    rfl
  · decide

/-! ## C5: the coarse stage of `findSymbolStartIndex` -/

theorem foldl_append_flatten {α β : Type} (g : α → List β) :
    ∀ (l : List α) (acc : List β),
      l.foldl (fun acc i => acc ++ g i) acc = acc ++ (l.map g).flatten
  | [], acc => by simp
  | x :: l, acc => by
    simp only [List.foldl_cons, List.map_cons, List.flatten_cons]
    rw [foldl_append_flatten g l (acc ++ g x), List.append_assoc]

theorem flatten_map_singleton {α β : Type} (f : α → β) :
    ∀ l : List α, (l.map fun i => [f i]).flatten = l.map f
  | [] => rfl
  | x :: l => by
    rw [List.map_cons, List.flatten_cons, List.map_cons, List.singleton_append,
      flatten_map_singleton f l]

theorem pySlice_length (xs : List ℝ) (a c : ℕ) (h : a + c ≤ xs.length) :
    (pySlice xs a (a + c)).length = c := by
  rw [pySlice, List.length_take, List.length_drop, Nat.add_sub_cancel_left]
  exact Nat.min_eq_left (by omega)

theorem pySlice_getD (xs : List ℝ) (a c j : ℕ) (hj : j < c)
    (h : a + c ≤ xs.length) :
    (pySlice xs a (a + c)).getD j 0 = xs.getD (a + j) 0 := by
  have h1 : j < (pySlice xs a (a + c)).length := by
    rw [pySlice_length xs a c h]; exact hj
  have h2 : a + j < xs.length := by omega
  rw [List.getD_eq_getElem _ _ h1, List.getD_eq_getElem _ _ h2]
  simp only [pySlice, List.getElem_take, List.getElem_drop]

theorem npCorrelate_eq_single (a v : List ℝ) (c : ℕ) (ha : a.length = c)
    (hv : v.length = c) :
    npCorrelate a v =
      [((List.range c).map fun j => a.getD j 0 * v.getD j 0).sum] := by
  rw [npCorrelate, if_pos (show v.length ≤ a.length by omega), corrValid, ha, hv,
    Nat.sub_self, Nat.zero_add, show List.range 1 = [0] from rfl,
    List.map_cons, List.map_nil]
  congr 2
  refine List.map_congr_left fun j _ => ?_
  rw [Nat.zero_add]

/-- The coarse cross-correlation array in closed form: entry `i` is the
dot product of `signal[i:i+C)` with `signal[i+2N:i+2N+C)`. -/
theorem coarseCrosscorr_closed (cfg : OFDM) (signal : List ℝ) (src : ℕ)
    (hbuf : ∀ i < src, i + 2 * cfg.nIFFT + cfg.nCyclic ≤ signal.length) :
    coarseCrosscorr cfg signal src = (List.range src).map fun i =>
      ((List.range cfg.nCyclic).map fun j =>
        signal.getD (i + j) 0 * signal.getD (i + 2 * cfg.nIFFT + j) 0).sum := by
  rw [coarseCrosscorr,
    foldl_append_flatten (fun i => npCorrelate (pySlice signal i (i + cfg.nCyclic))
      (pySlice signal (i + 2 * cfg.nIFFT) (i + 2 * cfg.nIFFT + cfg.nCyclic)))
      (List.range src) [],
    List.nil_append]
  have hmap : (List.range src).map (fun i =>
      npCorrelate (pySlice signal i (i + cfg.nCyclic))
        (pySlice signal (i + 2 * cfg.nIFFT) (i + 2 * cfg.nIFFT + cfg.nCyclic))) =
      (List.range src).map (fun i =>
        [((List.range cfg.nCyclic).map fun j =>
          signal.getD (i + j) 0 * signal.getD (i + 2 * cfg.nIFFT + j) 0).sum]) := by
    refine List.map_congr_left fun i hi => ?_
    have hb := hbuf i (List.mem_range.mp hi)
    have h1 : i + cfg.nCyclic ≤ signal.length := by omega
    rw [npCorrelate_eq_single _ _ cfg.nCyclic (pySlice_length signal i cfg.nCyclic h1)
      (pySlice_length signal (i + 2 * cfg.nIFFT) cfg.nCyclic hb)]
    congr 2
    refine List.map_congr_left fun j hj => ?_
    rw [pySlice_getD signal i cfg.nCyclic j (List.mem_range.mp hj) h1,
      pySlice_getD signal (i + 2 * cfg.nIFFT) cfg.nCyclic j (List.mem_range.mp hj) hb]
  rw [hmap, flatten_map_singleton]

theorem aheadIdx_stop (x : ℕ → ℝ) (imax : ℕ) (v : ℝ) (f j : ℕ)
    (h : ¬(j < imax ∧ x j = v)) :
    aheadIdx x imax v (f + 1) j = j := by
  rw [aheadIdx, if_neg h]

theorem lmAux_peak (x : ℕ → ℝ) (imax f i : ℕ) (h1 : i < imax)
    (h2 : x (i - 1) < x i)
    (h3 : x (aheadIdx x imax (x i) imax (i + 1)) < x i) :
    lmAux x imax (f + 1) i =
      (i + (aheadIdx x imax (x i) imax (i + 1) - 1)) / 2 ::
        lmAux x imax f (aheadIdx x imax (x i) imax (i + 1) + 1) := by
  rw [lmAux, if_pos h1, if_pos h2]
  simp only []
  rw [if_pos h3]

theorem lmAux_end (x : ℕ → ℝ) (imax f i : ℕ) (h1 : ¬ i < imax) :
    lmAux x imax (f + 1) i = [] := by
  rw [lmAux, if_neg h1]

theorem runR_pos (x : ℕ → ℝ) (t : ℝ) (n f i : ℕ) (h : i < n ∧ t < x i) :
    runR x t n (f + 1) i = 1 + runR x t n f (i + 1) := by
  rw [runR, if_pos h]

theorem runR_neg (x : ℕ → ℝ) (t : ℝ) (n f i : ℕ) (h : ¬(i < n ∧ t < x i)) :
    runR x t n (f + 1) i = 0 := by
  rw [runR, if_neg h]

theorem runL_neg (x : ℕ → ℝ) (t : ℝ) (f i : ℕ) (h : ¬ t < x i) :
    runL x t (f + 1) i = 0 := by
  rw [runL, if_neg h]

theorem localMaxima_ex : localMaxima [(0:ℝ), 1, 0, 0] = [1] := by
  show lmAux (fun i => ([(0:ℝ), 1, 0, 0]).getD i 0) 3 4 1 = [1]
  have ha : aheadIdx (fun i => ([(0:ℝ), 1, 0, 0]).getD i 0) 3
      (([(0:ℝ), 1, 0, 0]).getD 1 0) 3 2 = 2 := by
    refine aheadIdx_stop _ _ _ 2 2 fun hc => ?_
    have h2 : (0:ℝ) = 1 := hc.2
    norm_num at h2
  rw [lmAux_peak (fun i => ([(0:ℝ), 1, 0, 0]).getD i 0) 3 3 1 (by norm_num)
      (show (0:ℝ) < 1 by norm_num)
      (by rw [ha]; show (0:ℝ) < 1; norm_num),
    ha, lmAux_end _ _ 2 3 (by norm_num)]

theorem findPeaks_ex : findPeaksDistance [(0:ℝ), 1, 0, 0] 2 = [1] := by
  rw [findPeaksDistance, localMaxima_ex]
  simp [selectByPeakDistance, show List.range 1 = [0] from rfl]

theorem coarseCC_ex : coarseCrosscorr (⟨1, 0, 4, 1, 1, 0⟩ : OFDM)
    [(0:ℝ), 0, 0, 0, 1, 1, 1, -1, 0, 0] 4 = [0, 1, 0, 0] := by
  have hg0 : ([(0:ℝ), 0, 0, 0, 1, 1, 1, -1, 0, 0]).getD 0 0 = 0 := rfl
  have hg1 : ([(0:ℝ), 0, 0, 0, 1, 1, 1, -1, 0, 0]).getD 1 0 = 0 := rfl
  have hg2 : ([(0:ℝ), 0, 0, 0, 1, 1, 1, -1, 0, 0]).getD 2 0 = 0 := rfl
  have hg3 : ([(0:ℝ), 0, 0, 0, 1, 1, 1, -1, 0, 0]).getD 3 0 = 0 := rfl
  have hg4 : ([(0:ℝ), 0, 0, 0, 1, 1, 1, -1, 0, 0]).getD 4 0 = 1 := rfl
  have hg5 : ([(0:ℝ), 0, 0, 0, 1, 1, 1, -1, 0, 0]).getD 5 0 = 1 := rfl
  have hg6 : ([(0:ℝ), 0, 0, 0, 1, 1, 1, -1, 0, 0]).getD 6 0 = 1 := rfl
  have hg7 : ([(0:ℝ), 0, 0, 0, 1, 1, 1, -1, 0, 0]).getD 7 0 = -1 := rfl
  have hg8 : ([(0:ℝ), 0, 0, 0, 1, 1, 1, -1, 0, 0]).getD 8 0 = 0 := rfl
  rw [coarseCrosscorr_closed (⟨1, 0, 4, 1, 1, 0⟩ : OFDM)
    [(0:ℝ), 0, 0, 0, 1, 1, 1, -1, 0, 0] 4
    (by intro i hi; show i + 2 * 1 + 4 ≤ 10; omega)]
  show (List.range 4).map (fun i => ((List.range 4).map fun j =>
      ([(0:ℝ), 0, 0, 0, 1, 1, 1, -1, 0, 0]).getD (i + j) 0 *
        ([(0:ℝ), 0, 0, 0, 1, 1, 1, -1, 0, 0]).getD (i + 2 * 1 + j) 0).sum)
    = [0, 1, 0, 0]
  norm_num [show List.range 4 = [0, 1, 2, 3] from rfl, List.sum_cons, List.sum_nil,
    hg0, hg1, hg2, hg3, hg4, hg5, hg6, hg7, hg8]

theorem peakWidth_ex : peakWidthHalf [(0:ℝ), 1, 0, 0] 1 = 1 := by
  show runR (fun i => ([(0:ℝ), 1, 0, 0]).getD i 0)
      (([(0:ℝ), 1, 0, 0]).getD 1 0 / 2) 4 4 1 +
    runL (fun i => ([(0:ℝ), 1, 0, 0]).getD i 0)
      (([(0:ℝ), 1, 0, 0]).getD 1 0 / 2) 4 0 = 1
  rw [runR_pos (fun i => ([(0:ℝ), 1, 0, 0]).getD i 0)
      (([(0:ℝ), 1, 0, 0]).getD 1 0 / 2) 4 3 1
      ⟨by norm_num, show (1:ℝ) / 2 < 1 by norm_num⟩,
    runR_neg (fun i => ([(0:ℝ), 1, 0, 0]).getD i 0)
      (([(0:ℝ), 1, 0, 0]).getD 1 0 / 2) 4 2 2
      (fun hc => absurd hc.2 (by norm_num : ¬((1:ℝ) / 2 < 0))),
    runL_neg (fun i => ([(0:ℝ), 1, 0, 0]).getD i 0)
      (([(0:ℝ), 1, 0, 0]).getD 1 0 / 2) 3 0
      (by norm_num : ¬((1:ℝ) / 2 < 0))]

/-- **C5.** Corrected: for every signal buffer long enough to cover the
whole coarse search window, the coarse stage of `findSymbolStartIndex`
(`ofdm_codec.py` lines 272-285) computes, for each candidate offset `i` in
the window (default `nIFFT * 10` when `searchrangecoarse` is `None`), the
correlation of `signal[i:i+C)` with `signal[i+2N:i+2N+C)`, and calls
`scipy.signal.find_peaks` with **only** the minimum inter-peak distance
`2N` — no minimum-width condition is passed (line 284) — taking the first
peak's index as the coarse offset `o1`. -/
theorem coarse_stage_spec (cfg : OFDM) (signal : List ℝ)
    (searchrangecoarse : Option ℕ)
    (hbuf : ∀ i < srcVal cfg searchrangecoarse,
      i + 2 * cfg.nIFFT + cfg.nCyclic ≤ signal.length) :
    coarseCrosscorr cfg signal (srcVal cfg searchrangecoarse) =
      (List.range (srcVal cfg searchrangecoarse)).map (fun i =>
        ((List.range cfg.nCyclic).map fun j =>
          signal.getD (i + j) 0 * signal.getD (i + 2 * cfg.nIFFT + j) 0).sum)
    ∧ coarseO1 cfg signal (srcVal cfg searchrangecoarse) =
        (findPeaksDistance (coarseCrosscorr cfg signal (srcVal cfg searchrangecoarse))
          (cfg.nIFFT * 2)).head?
    ∧ srcVal cfg none = cfg.nIFFT * 10 :=
  ⟨coarseCrosscorr_closed cfg signal _ hbuf, rfl, rfl⟩

/-- Witness for C5: the closed form of the coarse stage on a concrete
ten-sample signal with `N = 1`, `C = 4` and coarse search range `4`. -/
theorem coarse_stage_spec_witness :
    coarseCrosscorr (⟨1, 0, 4, 1, 1, 0⟩ : OFDM) [(0:ℝ), 0, 0, 0, 1, 1, 1, -1, 0, 0]
        (srcVal (⟨1, 0, 4, 1, 1, 0⟩ : OFDM) (some 4)) =
      (List.range (srcVal (⟨1, 0, 4, 1, 1, 0⟩ : OFDM) (some 4))).map (fun i =>
        ((List.range (⟨1, 0, 4, 1, 1, 0⟩ : OFDM).nCyclic).map fun j =>
          ([(0:ℝ), 0, 0, 0, 1, 1, 1, -1, 0, 0]).getD (i + j) 0 *
            ([(0:ℝ), 0, 0, 0, 1, 1, 1, -1, 0, 0]).getD
              (i + 2 * (⟨1, 0, 4, 1, 1, 0⟩ : OFDM).nIFFT + j) 0).sum)
    ∧ coarseO1 (⟨1, 0, 4, 1, 1, 0⟩ : OFDM) [(0:ℝ), 0, 0, 0, 1, 1, 1, -1, 0, 0]
        (srcVal (⟨1, 0, 4, 1, 1, 0⟩ : OFDM) (some 4)) =
        (findPeaksDistance (coarseCrosscorr (⟨1, 0, 4, 1, 1, 0⟩ : OFDM)
            [(0:ℝ), 0, 0, 0, 1, 1, 1, -1, 0, 0]
            (srcVal (⟨1, 0, 4, 1, 1, 0⟩ : OFDM) (some 4)))
          ((⟨1, 0, 4, 1, 1, 0⟩ : OFDM).nIFFT * 2)).head?
    ∧ srcVal (⟨1, 0, 4, 1, 1, 0⟩ : OFDM) none = (⟨1, 0, 4, 1, 1, 0⟩ : OFDM).nIFFT * 10 :=
  coarse_stage_spec (⟨1, 0, 4, 1, 1, 0⟩ : OFDM) [(0:ℝ), 0, 0, 0, 1, 1, 1, -1, 0, 0]
    (some 4)
    (by intro i hi
        rw [show srcVal (⟨1, 0, 4, 1, 1, 0⟩ : OFDM) (some 4) = 4 from rfl] at hi
        show i + 2 * 1 + 4 ≤ 10
        omega)

/-- Counterexample to C5 as stated: on a ten-sample signal with `N = 1`,
`C = 4`, the cross-correlation is `[0, 1, 0, 0]`, whose single peak has
half-height width `1 < C/2 = 2`.  The source (distance condition only)
accepts it as `o1 = 1`, while the claimed coarse stage (which additionally
demands a minimum peak width of `C/2`) finds no peak at all. -/
theorem coarse_width_counterexample :
    coarseO1 (⟨1, 0, 4, 1, 1, 0⟩ : OFDM) [(0:ℝ), 0, 0, 0, 1, 1, 1, -1, 0, 0] 4 = some 1
    ∧ claimedCoarseO1 (⟨1, 0, 4, 1, 1, 0⟩ : OFDM)
        [(0:ℝ), 0, 0, 0, 1, 1, 1, -1, 0, 0] 4 = none := by
  constructor
  · show (findPeaksDistance (coarseCrosscorr (⟨1, 0, 4, 1, 1, 0⟩ : OFDM)
        [(0:ℝ), 0, 0, 0, 1, 1, 1, -1, 0, 0] 4) 2).head? = some 1
    rw [coarseCC_ex, findPeaks_ex]
    rfl
  · show ((findPeaksDistance (coarseCrosscorr (⟨1, 0, 4, 1, 1, 0⟩ : OFDM)
          [(0:ℝ), 0, 0, 0, 1, 1, 1, -1, 0, 0] 4) 2).filter
        (fun p => decide (2 ≤ peakWidthHalf (coarseCrosscorr (⟨1, 0, 4, 1, 1, 0⟩ : OFDM)
          [(0:ℝ), 0, 0, 0, 1, 1, 1, -1, 0, 0] 4) p))).head? = none
    rw [coarseCC_ex, findPeaks_ex]
    simp [peakWidth_ex]

end PyOfdm
